import Mathlib

/-!
Verification development for the trashly repository: a versioned in-memory
state container with diff/patch based linear undo/redo history and
pause/resume coalescing.

The data model is a shallow embedding of the JSON-like state trees the
store manages.  `Node` is one tree node: a scalar, an array, or a
string-keyed object.  JS arrays may contain holes (produced by
`delete arr[i]`, which is what `lodash.unset` does on an array index);
holes are represented by the `undef` constructor.  The `sym` constructor
represents the internal `REMOVE_SYMBOL` tombstone marker used by the
core `applyPatch` function while compacting array removals.

Objects are association lists in insertion order (faithful to JS object
key enumeration for the non-integer-like keys used throughout this
repository).  Numbers are modelled as integers (every number appearing in
the repository's states and tests is a small integer).
-/

namespace Trashly

/-- A path key: a string key into an object, or an integer index into an
array, exactly the `(string | number)[]` paths of the `Difference` type. -/
inductive Key where
  | str (s : String)
  | idx (n : Nat)
deriving DecidableEq

/-- A path into a state tree, root = empty path. -/
abbrev JPath := List Key

mutual

/-- One node of a state tree (see module docstring). -/
inductive Node where
  | null
  | undef
  | sym
  | bool (b : Bool)
  | num (n : Int)
  | str (s : String)
  | arr (es : Elems)
  | obj (fs : Fields)
deriving DecidableEq

/-- The ordered elements of an array node. -/
inductive Elems where
  | nil
  | cons (hd : Node) (tl : Elems)
deriving DecidableEq

/-- The ordered (insertion-order) fields of an object node. -/
inductive Fields where
  | nil
  | cons (k : String) (v : Node) (tl : Fields)
deriving DecidableEq

end

/-- `fs[k]` on an object: value of the first (only, for well-formed
objects) field named `k`. -/
def getF : Fields → String → Option Node
  | .nil, _ => none
  | .cons k v tl, key => if k = key then some v else getF tl key

/-- Does the object have field `k`? -/
def hasF (fs : Fields) (key : String) : Bool :=
  (getF fs key).isSome

/-- JS assignment `obj[k] = v`: an existing key keeps its position, a new
key is appended at the end (insertion order). -/
def setF : Fields → String → Node → Fields
  | .nil, key, v => .cons key v .nil
  | .cons k w tl, key, v =>
    if k = key then .cons k v tl else .cons k w (setF tl key v)

/-- JS `delete obj[k]`: removes the field (first occurrence). -/
def removeF : Fields → String → Fields
  | .nil, _ => .nil
  | .cons k w tl, key => if k = key then tl else .cons k w (removeF tl key)

/-- The keys of an object, in order. -/
def keysF : Fields → List String
  | .nil => []
  | .cons k _ tl => k :: keysF tl

/-- Insertion-order association lists representing JS objects never repeat
a key. -/
def keysNodupF : Fields → Bool
  | .nil => true
  | .cons k _ tl => !(hasF tl k) && keysNodupF tl

/-- Number of elements of an array node. -/
def elength : Elems → Nat
  | .nil => 0
  | .cons _ tl => elength tl + 1

/-- `es[i]` on an array. -/
def eget : Elems → Nat → Option Node
  | .nil, _ => none
  | .cons h _, 0 => some h
  | .cons _ tl, n + 1 => eget tl n

/-- Replace element `i` if it is in range, else leave the array unchanged
(this is JS `delete arr[i]` / in-range assignment semantics). -/
def esetIn : Elems → Nat → Node → Elems
  | .nil, _, _ => .nil
  | .cons _ tl, 0, v => .cons v tl
  | .cons h tl, n + 1, v => .cons h (esetIn tl n v)

/-- Append two element lists. -/
def eappend : Elems → Elems → Elems
  | .nil, ys => ys
  | .cons h tl, ys => .cons h (eappend tl ys)

/-- `i` holes (`undefined` slots), used when JS assignment `arr[i] = v`
writes beyond the current length. -/
def eholes : Nat → Elems
  | 0 => .nil
  | n + 1 => .cons .undef (eholes n)

/-- JS assignment `arr[i] = v`: replaces in range; beyond the end it
extends the array with holes so that `v` lands at index `i`. -/
def esetExtend (es : Elems) (i : Nat) (v : Node) : Elems :=
  if i < elength es then esetIn es i v
  else eappend es (eappend (eholes (i - elength es)) (.cons v .nil))

/-- Child lookup `t[key]` as performed by the lodash path walkers: string
keys read object fields, integer keys read array slots; an integer key on
an object reads the field with the decimal-string name (JS key coercion).
A string key on an array and any key on a scalar read nothing. -/
def getKey : Node → Key → Option Node
  | .obj fs, .str k => getF fs k
  | .obj fs, .idx i => getF fs (toString i)
  | .arr es, .idx i => eget es i
  | _, _ => none

/-- JS assignment `t[key] = v` on one node.  Writes on scalars are
silently dropped (as in non-strict JS); a string key on an array would
set a non-index property, which is invisible to this tree model (the
differ never produces such a path). -/
def setKeyNode : Node → Key → Node → Node
  | .obj fs, .str k, v => .obj (setF fs k v)
  | .obj fs, .idx i, v => .obj (setF fs (toString i) v)
  | .arr es, .idx i, v => .arr (esetExtend es i v)
  | n, _, _ => n

/-- JS `delete t[key]` on one node: object fields are removed; an array
slot becomes a hole and the length does not change (this is exactly what
`lodash.unset` does on an array index). -/
def delKey : Node → Key → Node
  | .obj fs, .str k => .obj (removeF fs k)
  | .obj fs, .idx i => .obj (removeF fs (toString i))
  | .arr es, .idx i => .arr (esetIn es i .undef)
  | n, _ => n

/-- Is the node an object or an array (lodash `isObject` on the values
occurring in state trees)? -/
def isComposite : Node → Bool
  | .obj _ => true
  | .arr _ => true
  | _ => false

/-- The fresh container `lodash.set` creates when it must walk through a
missing or non-object value: an array when the next path key is an index,
an object otherwise. -/
def freshFor : Key → Node
  | .str _ => Node.obj .nil
  | .idx _ => Node.arr .nil

/-- `lodash.set(n, path, v)`: walks `path`, keeping existing composite
children and replacing missing/non-composite ones by a fresh container
chosen by the next key, then assigns `v` at the final key.  With an empty
path the object is returned unchanged (lodash's loop body never runs). -/
def lodashSet : Node → JPath → Node → Node
  | n, [], _ => n
  | n, [k], v => setKeyNode n k v
  | n, k :: k2 :: rest, v =>
    let c :=
      match getKey n k with
      | some c0 => if isComposite c0 then c0 else freshFor k2
      | none => freshFor k2
    setKeyNode n k (lodashSet c (k2 :: rest) v)

/-- `lodash.unset(n, path)`: resolves the parent of the final key by a
plain walk (creating nothing) and deletes the final key there; if the
walk dies, the tree is unchanged. -/
def lodashUnset : Node → JPath → Node
  | n, [] => n
  | n, [k] => delKey n k
  | n, k :: k2 :: rest =>
    match getKey n k with
    | some c => setKeyNode n k (lodashUnset c (k2 :: rest))
    | none => n

/-- The three `Difference` kinds of the core `types` module. -/
inductive DKind where
  | CREATE
  | CHANGE
  | REMOVE
deriving DecidableEq

/-- One `Difference` record: `{type, path, value?, oldValue?}`. -/
structure Delta where
  type : DKind
  path : JPath
  value : Option Node
  oldValue : Option Node
deriving DecidableEq

/-- The tail of the array rule of the differ when the before side is
exhausted: pure CREATEs for the remaining after-side elements. -/
def diffECreates (p : JPath) : Nat → Elems → List Delta
  | _, .nil => []
  | i, .cons y ys =>
    ⟨DKind.CREATE, p ++ [Key.idx i], some y, none⟩ :: diffECreates p (i + 1) ys

/-- The CREATE part of the object rule of the differ: every key of the
after-object that is absent from the before-object, in the after-object's
enumeration order. -/
def diffFAdd (p : JPath) (fa : Fields) : Fields → List Delta
  | .nil => []
  | .cons k vb tl =>
    (if hasF fa k then [] else [⟨DKind.CREATE, p ++ [Key.str k], some vb, none⟩])
      ++ diffFAdd p fa tl

mutual

/-- Modelled from the spec: the Tree Differ `diff(before, after)` of the
core package is not under `src/` (only its callers and its observable
output in the tests are), so it is modelled from spec section 4.1:
lock-step traversal; at a node, reference-equal sides emit nothing (in
this value model, reference equality is modelled as structural equality,
which produces the same patch because recursing into equal subtrees emits
nothing); objects compare per key (only-after keys emit CREATE, only-
before keys emit REMOVE with the old value, keys on both sides recurse
when both values are composite of the same shape and emit CHANGE
otherwise); arrays compare by index position with indices beyond one
side's length emitting CREATE/REMOVE; emission order is depth-first in
enumeration order, REMOVE/recurse/CHANGE from the before side first, then
the CREATEs of the after side. -/
def diffN (p : JPath) (a b : Node) : List Delta :=
  if a = b then []
  else
    match a, b with
    | .obj fa, .obj fb => diffFRem p fb fa ++ diffFAdd p fa fb
    | .arr ea, .arr eb => diffE p 0 ea eb
    | a2, b2 => [⟨DKind.CHANGE, p, some b2, some a2⟩]
termination_by structural a

/-- The REMOVE/recurse/CHANGE part of the object rule of the differ,
iterating the before-object's fields in order against the after-object
`fb`. -/
def diffFRem (p : JPath) (fb : Fields) : Fields → List Delta
  | .nil => []
  | .cons k va tl =>
    (match getF fb k with
     | none => [⟨DKind.REMOVE, p ++ [Key.str k], none, some va⟩]
     | some vb => diffN (p ++ [Key.str k]) va vb)
      ++ diffFRem p fb tl
termination_by structural fa => fa

/-- The array rule of the differ: compare index-by-index starting at `i`;
a longer before side emits REMOVEs, a longer after side emits CREATEs. -/
def diffE (p : JPath) (i : Nat) : Elems → Elems → List Delta
  | .nil, .nil => []
  | .cons x xs, .nil =>
    ⟨DKind.REMOVE, p ++ [Key.idx i], none, some x⟩ :: diffE p (i + 1) xs .nil
  | .nil, eb => diffECreates p i eb
  | .cons x xs, .cons y ys =>
    diffN (p ++ [Key.idx i]) x y ++ diffE p (i + 1) xs ys
termination_by structural ea => ea

end

/-- `diff(before, after)` at the root. -/
def diff (a b : Node) : List Delta :=
  diffN [] a b

/-- Does every field of `fb` have a counterpart in `fa`?  (Part of the
object case of structural equivalence.) -/
def keysSubF (fa : Fields) : Fields → Bool
  | .nil => true
  | .cons k _ tl => hasF fa k && keysSubF fa tl

mutual

/-- Structural equality of snapshots in the sense of the spec's data
model: object key insertion order is irrelevant, array order and length
are significant, scalars compare by value. -/
def equivN : Node → Node → Bool
  | .obj fa, .obj fb => equivF fb fa && keysSubF fa fb
  | .arr ea, .arr eb => equivE ea eb
  | a, b => a = b
termination_by structural a => a

/-- Every field of the first list has an equivalent counterpart in `fb`. -/
def equivF (fb : Fields) : Fields → Bool
  | .nil => true
  | .cons k va tl =>
    (match getF fb k with
     | none => false
     | some vb => equivN va vb)
      && equivF fb tl
termination_by structural fa => fa

/-- Pointwise structural equality of array elements (also enforcing equal
length). -/
def equivE : Elems → Elems → Bool
  | .nil, .nil => true
  | .cons x xs, .cons y ys => equivN x y && equivE xs ys
  | _, _ => false
termination_by structural ea => ea

end

mutual

/-- A well-formed user snapshot: no holes, no internal tombstone marker,
and no repeated object keys (JS objects cannot repeat keys). -/
def wfN : Node → Bool
  | .undef => false
  | .sym => false
  | .arr es => wfE es
  | .obj fs => keysNodupF fs && wfF fs
  | _ => true
termination_by structural n => n

/-- All field values are well-formed. -/
def wfF : Fields → Bool
  | .nil => true
  | .cons _ v tl => wfN v && wfF tl
termination_by structural fs => fs

/-- All elements are well-formed. -/
def wfE : Elems → Bool
  | .nil => true
  | .cons h tl => wfN h && wfE tl
termination_by structural es => es

end

/-- One forward step of `Trashly.applyPatch` (the store's protected
patch applier): CREATE and CHANGE write `value` via `lodash.set`,
REMOVE deletes via `lodash.unset`. -/
def applyStep (n : Node) (d : Delta) : Node :=
  match d.type with
  | .CREATE => lodashSet n d.path (d.value.getD .undef)
  | .CHANGE => lodashSet n d.path (d.value.getD .undef)
  | .REMOVE => lodashUnset n d.path

/-- The loop body of `Trashly.applyPatch` over the whole patch, in patch
order, on (a deep clone of) the base snapshot. -/
def applyPatchNode (base : Node) (patch : List Delta) : Node :=
  patch.foldl applyStep base

/-- One inverse step of `Trashly.undo`: CREATE deletes via
`lodash.unset`, CHANGE and REMOVE write `oldValue` via `lodash.set`. -/
def undoStep (n : Node) (d : Delta) : Node :=
  match d.type with
  | .CREATE => lodashUnset n d.path
  | .CHANGE => lodashSet n d.path (d.oldValue.getD .undef)
  | .REMOVE => lodashSet n d.path (d.oldValue.getD .undef)

/-- The loop body of `Trashly.undo` over the whole patch, in patch order,
on (a deep clone of) the current snapshot. -/
def applyUndoNode (base : Node) (patch : List Delta) : Node :=
  patch.foldl undoStep base

/-- The state of one `Trashly` store (the class of the core package).
`notifications` counts how many times `notifySubscribers` has run; the
subscribed listeners are all invoked exactly when it increments, so it is
a faithful abstraction of the listener set for notification claims.
`processStateBeforeMerging` is the identity in the base class and is
inlined as such. -/
structure Store where
  prev : Node
  current : Node
  pointer : Int
  history : List (List Delta)
  isPaused : Bool
  didChangeWhilePaused : Bool
  notifications : Nat
deriving DecidableEq

/-- `new Trashly(initial)`: `prev` and `current` start at the initial
snapshot, `pointer = -1`, empty history, not paused. -/
def mkStore (initial : Node) : Store :=
  { prev := initial
    current := initial
    pointer := -1
    history := []
    isPaused := false
    didChangeWhilePaused := false
    notifications := 0 }

/-- `this.history = this.history.splice(0, this.pointer + 1)`: keep the
first `pointer + 1` entries (the committed past up to the cursor). -/
def truncHistory (h : List (List Delta)) (pointer : Int) : List (List Delta) :=
  h.take (pointer + 1).toNat

/-- `Trashly.willChange` (private): while paused, the first change
records the pause-start snapshot into `prev` and raises the dirty flag;
when not paused, `prev` tracks the pre-change snapshot. -/
def Store.willChange (s : Store) : Store :=
  if s.isPaused then
    if !s.didChangeWhilePaused then
      { s with prev := s.current, didChangeWhilePaused := true }
    else s
  else { s with prev := s.current }

/-- `Trashly.didChange` (private): when not paused, commit
`diff(prev, current)` (truncating the redo future first, then appending
and advancing the pointer); always notify. -/
def Store.didChange (s : Store) : Store :=
  let s1 :=
    if !s.isPaused then
      { s with
        history := truncHistory s.history s.pointer ++ [diff s.prev s.current]
        pointer := s.pointer + 1 }
    else s
  { s1 with notifications := s1.notifications + 1 }

/-- `Trashly.applyPatch` (protected): applies a patch forward to a deep
clone of `current`, then publishes it and notifies. -/
def Store.applyPatch (s : Store) (patch : List Delta) : Store :=
  { s with
    prev := s.current
    current := applyPatchNode s.current patch
    notifications := s.notifications + 1 }

/-- `Trashly.patch` (public): `willChange` then `applyPatch`. -/
def Store.patch (s : Store) (patch : List Delta) : Store :=
  (s.willChange).applyPatch patch

/-- `Trashly.mutate`: runs the mutator on a deep clone of `current`
(modelled by an arbitrary function `m` on the snapshot value; a deep
clone is structurally identical to its source), then `willChange`,
publish, `didChange`. -/
def Store.mutate (s : Store) (m : Node → Node) : Store :=
  let next := m s.current
  Store.didChange { s.willChange with current := next }

/-- JS object spread `{...fs, ...p}`: keys of `fs` in order with values
overridden by `p` where present, then the keys of `p` absent from `fs`,
in `p`'s order. -/
def mergeF : Fields → Fields → Fields
  | .nil, p => p
  | .cons k v tl, p =>
    match getF p k with
    | some w => .cons k w (mergeF tl (removeF p k))
    | none => .cons k v (mergeF tl p)

/-- The fields of `current` as seen by a top-level object spread (state
roots are always objects in this library: the type parameter of the class
is `T extends object`). -/
def topFields : Node → Fields
  | .obj fs => fs
  | _ => .nil

/-- `Trashly.setState` with a partial object: `willChange`, publish the
shallow merge `{...this.current, ...state}`, `didChange`.  (The
function-valued overload computes the same partial first and is
subsumed by choosing `p`.) -/
def Store.setState (s : Store) (p : Fields) : Store :=
  Store.didChange
    { s.willChange with current := Node.obj (mergeF (topFields s.current) p) }

/-- `Trashly.replaceState`: `willChange`, then unconditionally
`prev := current` and publish the replacement, `didChange`. -/
def Store.replaceState (s : Store) (state : Node) : Store :=
  let s1 := s.willChange
  Store.didChange { s1 with prev := s1.current, current := state }

/-- `Trashly.pause`: raise the paused flag and notify. -/
def Store.pause (s : Store) : Store :=
  { s with isPaused := true, notifications := s.notifications + 1 }

/-- `Trashly.resume`: if a change happened while paused, commit the
coalesced `diff(prev, current)` as one entry (truncating the redo future)
and clear the dirty flag; always clear the paused flag and notify. -/
def Store.resume (s : Store) : Store :=
  let s1 :=
    if s.didChangeWhilePaused then
      { s with
        prev := s.current
        history := truncHistory s.history s.pointer ++ [diff s.prev s.current]
        pointer := s.pointer + 1
        didChangeWhilePaused := false }
    else s
  { s1 with isPaused := false, notifications := s1.notifications + 1 }

/-- `Trashly.canUndo` (getter), transcribed exactly:
`pointer >= 0 || (pointer === 0 && isPaused && didChangeWhilePaused)`. -/
def Store.canUndo (s : Store) : Bool :=
  decide (0 ≤ s.pointer)
    || (decide (s.pointer = 0) && s.isPaused && s.didChangeWhilePaused)

/-- `Trashly.canRedo` (getter): `pointer < history.length - 1`. -/
def Store.canRedo (s : Store) : Bool :=
  decide (s.pointer < (s.history.length : Int) - 1)

/-- `Trashly.undo`: if paused, fold any pending in-pause change into
history (as one entry at the end) and clear the paused flag; then, if
`canUndo`, apply the patch at `pointer` inverted to a deep clone of
`current`, move the pointer back, publish and notify; otherwise return
unchanged. -/
def Store.undo (s : Store) : Store :=
  let s1 :=
    if s.isPaused then
      let s0 :=
        if s.didChangeWhilePaused then
          let h := truncHistory s.history s.pointer ++ [diff s.prev s.current]
          { s with
            history := h
            pointer := (h.length : Int) - 1
            didChangeWhilePaused := false }
        else s
      { s0 with isPaused := false }
    else s
  if !s1.canUndo then s1
  else
    let patch := (s1.history.get? s1.pointer.toNat).getD []
    { s1 with
      pointer := s1.pointer - 1
      prev := s1.current
      current := applyUndoNode s1.current patch
      notifications := s1.notifications + 1 }

/-- `Trashly.redo`: if paused with a pending change, fold it into history
and return at once (note: the paused flag is left raised and no redo step
or notification happens — transcribed as written); if paused without a
pending change, clear the paused flag; then, if `canRedo`, advance the
pointer and apply that patch forward via `applyPatch`. -/
def Store.redo (s : Store) : Store :=
  if s.isPaused then
    if s.didChangeWhilePaused then
      let h := truncHistory s.history s.pointer ++ [diff s.prev s.current]
      { s with
        history := h
        pointer := (h.length : Int) - 1
        didChangeWhilePaused := false }
    else
      let s1 := { s with isPaused := false }
      if !s1.canRedo then s1
      else
        let s2 := { s1 with pointer := s1.pointer + 1 }
        s2.applyPatch ((s2.history.get? s2.pointer.toNat).getD [])
  else
    if !s.canRedo then s
    else
      let s2 := { s with pointer := s.pointer + 1 }
      s2.applyPatch ((s2.history.get? s2.pointer.toNat).getD [])

/-- `Trashly.getState`. -/
def Store.getState (s : Store) : Node :=
  s.current

/-- `Trashly.getIsPaused`. -/
def Store.getIsPaused (s : Store) : Bool :=
  s.isPaused

/-- `Trashly.getCanUndo`. -/
def Store.getCanUndo (s : Store) : Bool :=
  s.canUndo

/-- `Trashly.getCanRedo`. -/
def Store.getCanRedo (s : Store) : Bool :=
  s.canRedo

/-! ## The core package's standalone `applyPatch`

`applyPatch(target, patch)` of the core package copies the root
(`slice()` for an array root, `Object.assign({}, target)` otherwise),
then for each Difference walks its path: a path step whose key is not yet
in the `refs` set is replaced by `Object.assign({}, child)` (note this
turns a nested *array* into a plain object with decimal-string keys) and
the key is added to `refs`.  At the final key, CREATE/CHANGE assign the
value; REMOVE on an array container writes the `REMOVE_SYMBOL` tombstone
and queues a deferred compaction closure, otherwise it deletes the key.
After all Differences, the queued compactions run in order; each one
executes `t[secondToLastKey] = t[secondToLastKey].filter(x => x !==
REMOVE_SYMBOL)` where `secondToLastKey` is `path[path.length - 1]` (the
same value as `lastKey`).  A closure's captured array `t` is modelled by
looking its path up at queue-run time, which is exact as long as no later
Difference replaces that array node wholesale. -/

/-- The outcome of running the core `applyPatch`: a result tree, or a JS
runtime TypeError (calling `.filter` on a non-array such as the tombstone
symbol). -/
inductive PRes where
  | ok (n : Node)
  | typeErr
deriving DecidableEq

/-- Array elements as the fields of a plain object with decimal-string
keys, starting at index `i` (what spreading an array produces). -/
def enumF : Nat → Elems → Fields
  | _, .nil => .nil
  | i, .cons h tl => .cons (toString i) h (enumF (i + 1) tl)

/-- `Object.assign({}, x)`: a shallow copy of an object, an array turned
into a plain object with decimal-string keys, and an empty object for the
scalars that occur in this repository's trees (no string is ever walked
through by a patch here, so string char-unpacking is not modelled). -/
def spreadToObj : Node → Node
  | .obj fs => .obj fs
  | .arr es => .obj (enumF 0 es)
  | _ => .obj .nil

/-- Plain read of the node at a path. -/
def getAtPath : Node → JPath → Option Node
  | n, [] => some n
  | n, k :: rest =>
    match getKey n k with
    | some c => getAtPath c rest
    | none => none

/-- Plain in-place write of the node at an existing path (used to model a
mutation performed through a captured reference). -/
def setAtPath : Node → JPath → Node → Node
  | _, [], v => v
  | n, k :: rest, v =>
    match getKey n k with
    | some c => setKeyNode n k (setAtPath c rest v)
    | none => n

/-- Process one Difference of the core `applyPatch`: walk the remaining
path segment `rest` below the already-walked prefix `walked`, performing
the copy-on-walk with the `refs` key set, and the terminal action;
returns the rewritten subtree, the grown `refs` set, and the queued
compactions (array path, recorded key). -/
def walkDelta (d : Delta) : Node → JPath → JPath → List Key →
    Node × List Key × List (JPath × Key)
  | n, _, [], refs => (n, refs, [])
  | n, walked, [last], refs =>
    match d.type with
    | .CREATE => (setKeyNode n last (d.value.getD .undef), refs, [])
    | .CHANGE => (setKeyNode n last (d.value.getD .undef), refs, [])
    | .REMOVE =>
      match n with
      | .arr es => (setKeyNode (.arr es) last .sym, refs, [(walked, last)])
      | other => (delKey other last, refs, [])
  | n, walked, k :: k2 :: more, refs =>
    if k ∈ refs then
      let child := (getKey n k).getD .undef
      let r := walkDelta d child (walked ++ [k]) (k2 :: more) refs
      (setKeyNode n k r.1, r.2.1, r.2.2)
    else
      let child := spreadToObj ((getKey n k).getD .undef)
      let r := walkDelta d child (walked ++ [k]) (k2 :: more) (k :: refs)
      (setKeyNode n k r.1, r.2.1, r.2.2)

/-- The main Difference loop of the core `applyPatch`, threading the tree,
the `refs` set and the deferred-compaction queue. -/
def applyDeltasCore : Node → List Key → List (JPath × Key) → List Delta →
    Node × List (JPath × Key)
  | n, _, q, [] => (n, q)
  | n, refs, q, d :: ds =>
    let r := walkDelta d n [] d.path refs
    applyDeltasCore r.1 r.2.1 (q ++ r.2.2) ds

/-- Drop the tombstone-marked slots of an array. -/
def efilterSym : Elems → Elems
  | .nil => .nil
  | .cons h tl => if h = .sym then efilterSym tl else .cons h (efilterSym tl)

/-- Run one deferred compaction: `t[secondToLastKey] =
t[secondToLastKey].filter(x => x !== REMOVE_SYMBOL)`.  Because
`secondToLastKey` holds `path[path.length - 1]`, the filtered value is
the slot at the recorded key itself — the tombstone symbol for a removed
slot — and calling `.filter` on it is a TypeError. -/
def runQueueItem (n : Node) (item : JPath × Key) : PRes :=
  match getAtPath n item.1 with
  | none => .typeErr
  | some c =>
    match getKey c item.2 with
    | some (.arr es) => .ok (setAtPath n (item.1 ++ [item.2]) (.arr (efilterSym es)))
    | _ => .typeErr

/-- Run the deferred compactions in order. -/
def runQueue : Node → List (JPath × Key) → PRes
  | n, [] => .ok n
  | n, item :: rest =>
    match runQueueItem n item with
    | .ok n1 => runQueue n1 rest
    | .typeErr => .typeErr

/-- `applyPatch(target, patch)` of the core package (see section
docstring above). -/
def applyPatchCore (target : Node) (patch : List Delta) : PRes :=
  let next0 :=
    match target with
    | .arr es => Node.arr es
    | t => spreadToObj t
  let r := applyDeltasCore next0 [] [] patch
  runQueue r.1 r.2

/-! ## Concrete example snapshots used by evaluation theorems -/

/-- The 5-element array `[10, 20, 30, 40, 50]` of the array-removal
property. -/
def fiveArr : Node :=
  .arr (.cons (.num 10) (.cons (.num 20) (.cons (.num 30)
    (.cons (.num 40) (.cons (.num 50) .nil)))))

/-- A patch removing the two non-adjacent elements at indices 1 and 3 of
a 5-element array. -/
def removeTwoPatch : List Delta :=
  [⟨DKind.REMOVE, [Key.idx 1], none, some (.num 20)⟩,
   ⟨DKind.REMOVE, [Key.idx 3], none, some (.num 40)⟩]

/-- The test suite's initial snapshot `{name: "Steve", age: 36}`. -/
def steveN : Node :=
  .obj (.cons "name" (.str "Steve") (.cons "age" (.num 36) .nil))

/-- A store paused immediately after construction and then given one
in-pause change (`setState({age: 37})`): `pointer` is still `-1`,
`isPaused` and `didChangeWhilePaused` are both true. -/
def pausedDirty : Store :=
  ((mkStore steveN).pause).setState (.cons "age" (.num 37) .nil)

/-- `{list: [1]}`: a snapshot with a one-element array. -/
def listOne : Node :=
  .obj (.cons "list" (.arr (.cons (.num 1) .nil)) .nil)

/-- `{list: [1, 2]}`: the same snapshot after appending `2`. -/
def listTwo : Node :=
  .obj (.cons "list" (.arr (.cons (.num 1) (.cons (.num 2) .nil))) .nil)

/-- `{list: [1, <hole>]}`: what undoing the append leaves behind
(`lodash.unset` on an array index deletes the slot without shortening
the array). -/
def listHole : Node :=
  .obj (.cons "list" (.arr (.cons (.num 1) (.cons .undef .nil))) .nil)

/-! ## Reference-identity model

JS objects and arrays have reference identity; primitives do not.  To
reason about structural sharing ("reference-identical", claim C8) the
same trees are modelled with an identity tag on every composite node:
two occurrences denote the same JS reference exactly when they are the
same tagged term.  In-place mutation (`t[k] = v`, `delete t[k]`) keeps
the mutated node's tag; `Object.assign({}, t)` and `lodash.cloneDeep`
mint fresh tags from a counter. -/

mutual

/-- A snapshot value with identity tags on composites. -/
inductive TNode where
  | scal (v : Node)
  | tobj (id : Nat) (fs : TFields)
  | tarr (id : Nat) (es : TElems)
deriving DecidableEq

/-- Tagged array elements. -/
inductive TElems where
  | nil
  | cons (hd : TNode) (tl : TElems)
deriving DecidableEq

/-- Tagged object fields. -/
inductive TFields where
  | nil
  | cons (k : String) (v : TNode) (tl : TFields)
deriving DecidableEq

end

mutual

/-- Forget the identity tags. -/
def eraseT : TNode → Node
  | .scal v => v
  | .tobj _ fs => .obj (eraseTF fs)
  | .tarr _ es => .arr (eraseTE es)
termination_by structural t => t

/-- Forget the identity tags of object fields. -/
def eraseTF : TFields → Fields
  | .nil => .nil
  | .cons k v tl => .cons k (eraseT v) (eraseTF tl)
termination_by structural fs => fs

/-- Forget the identity tags of array elements. -/
def eraseTE : TElems → Elems
  | .nil => .nil
  | .cons h tl => .cons (eraseT h) (eraseTE tl)
termination_by structural es => es

end

/-- Tagged field lookup. -/
def getFT : TFields → String → Option TNode
  | .nil, _ => none
  | .cons k v tl, key => if k = key then some v else getFT tl key

/-- Tagged field write (replace in place, else append). -/
def setFT : TFields → String → TNode → TFields
  | .nil, key, v => .cons key v .nil
  | .cons k w tl, key, v =>
    if k = key then .cons k v tl else .cons k w (setFT tl key v)

/-- Tagged field removal. -/
def removeFT : TFields → String → TFields
  | .nil, _ => .nil
  | .cons k w tl, key =>
    if k = key then tl else .cons k w (removeFT tl key)

/-- Tagged indexed read. -/
def egetT : TElems → Nat → Option TNode
  | .nil, _ => none
  | .cons h _, 0 => some h
  | .cons _ tl, n + 1 => egetT tl n

/-- Tagged in-range slot replacement. -/
def esetInT : TElems → Nat → TNode → TElems
  | .nil, _, _ => .nil
  | .cons _ tl, 0, v => .cons v tl
  | .cons h tl, n + 1, v => .cons h (esetInT tl n v)

/-- Tagged element-list append. -/
def eappendT : TElems → TElems → TElems
  | .nil, ys => ys
  | .cons h tl, ys => .cons h (eappendT tl ys)

/-- Tagged holes (`undefined` slots carry no identity). -/
def eholesT : Nat → TElems
  | 0 => .nil
  | n + 1 => .cons (.scal .undef) (eholesT n)

/-- Tagged JS array assignment with extension. -/
def esetExtendT (es : TElems) (i : Nat) (v : TNode) : TElems :=
  if i < elength (eraseTE es) then esetInT es i v
  else eappendT es (eappendT (eholesT (i - elength (eraseTE es))) (.cons v .nil))

/-- Tagged array elements as decimal-string fields. -/
def enumFT : Nat → TElems → TFields
  | _, .nil => .nil
  | i, .cons h tl => .cons (toString i) h (enumFT (i + 1) tl)

/-- Tagged child lookup `t[key]`. -/
def getKeyT : TNode → Key → Option TNode
  | .tobj _ fs, .str k => getFT fs k
  | .tobj _ fs, .idx i => getFT fs (toString i)
  | .tarr _ es, .idx i => egetT es i
  | _, _ => none

/-- Tagged in-place JS assignment `t[key] = v`: the mutated composite
keeps its identity tag. -/
def setKeyNodeT : TNode → Key → TNode → TNode
  | .tobj id fs, .str k, v => .tobj id (setFT fs k v)
  | .tobj id fs, .idx i, v => .tobj id (setFT fs (toString i) v)
  | .tarr id es, .idx i, v => .tarr id (esetExtendT es i v)
  | n, _, _ => n

/-- Tagged in-place `delete t[key]`. -/
def delKeyT : TNode → Key → TNode
  | .tobj id fs, .str k => .tobj id (removeFT fs k)
  | .tobj id fs, .idx i => .tobj id (removeFT fs (toString i))
  | .tarr id es, .idx i => .tarr id (esetInT es i (.scal .undef))
  | n, _ => n

/-- Tagged `Object.assign({}, x)`: a fresh identity whose fields are the
old references (shallow copy). -/
def spreadToObjT (c : Nat) : TNode → TNode × Nat
  | .tobj _ fs => (.tobj c fs, c + 1)
  | .tarr _ es => (.tobj c (enumFT 0 es), c + 1)
  | _ => (.tobj c .nil, c + 1)

mutual

/-- Materialize an untagged value (e.g. a Difference payload) as a fresh
reference: composites get fresh tags from the counter. -/
def injectT : Node → Nat → TNode × Nat
  | .obj fs, c =>
    let r := injectTF fs (c + 1)
    (.tobj c r.1, r.2)
  | .arr es, c =>
    let r := injectTE es (c + 1)
    (.tarr c r.1, r.2)
  | v, c => (.scal v, c)
termination_by structural n => n

/-- Materialize untagged fields. -/
def injectTF : Fields → Nat → TFields × Nat
  | .nil, c => (.nil, c)
  | .cons k v tl, c =>
    let r := injectT v c
    let r2 := injectTF tl r.2
    (.cons k r.1 r2.1, r2.2)
termination_by structural fs => fs

/-- Materialize untagged elements. -/
def injectTE : Elems → Nat → TElems × Nat
  | .nil, c => (.nil, c)
  | .cons h tl, c =>
    let r := injectT h c
    let r2 := injectTE tl r.2
    (.cons r.1 r2.1, r2.2)
termination_by structural es => es

end

mutual

/-- `lodash.cloneDeep`: every composite of the copy is a fresh
reference. -/
def cloneDeepT : TNode → Nat → TNode × Nat
  | .scal v, c => (.scal v, c)
  | .tobj _ fs, c =>
    let r := cloneDeepTF fs (c + 1)
    (.tobj c r.1, r.2)
  | .tarr _ es, c =>
    let r := cloneDeepTE es (c + 1)
    (.tarr c r.1, r.2)
termination_by structural t => t

/-- Deep-clone tagged fields. -/
def cloneDeepTF : TFields → Nat → TFields × Nat
  | .nil, c => (.nil, c)
  | .cons k v tl, c =>
    let r := cloneDeepT v c
    let r2 := cloneDeepTF tl r.2
    (.cons k r.1 r2.1, r2.2)
termination_by structural fs => fs

/-- Deep-clone tagged elements. -/
def cloneDeepTE : TElems → Nat → TElems × Nat
  | .nil, c => (.nil, c)
  | .cons h tl, c =>
    let r := cloneDeepT h c
    let r2 := cloneDeepTE tl r.2
    (.cons r.1 r2.1, r2.2)
termination_by structural es => es

end

/-- Tagged plain read of the node at a path. -/
def getAtPathT : TNode → JPath → Option TNode
  | n, [] => some n
  | n, k :: rest =>
    match getKeyT n k with
    | some c => getAtPathT c rest
    | none => none

/-- Tagged in-place write at an existing path (a mutation through a
captured reference: every node along the path keeps its tag). -/
def setAtPathT : TNode → JPath → TNode → TNode
  | _, [], v => v
  | n, k :: rest, v =>
    match getKeyT n k with
    | some c => setKeyNodeT n k (setAtPathT c rest v)
    | none => n

/-- Tagged variant of one Difference walk of the core `applyPatch`,
threading the fresh-identity counter: a path step not yet in `refs` is
shallow-copied (fresh tag), later steps through the same key reuse the
reference; the terminal write materializes the payload. -/
def walkDeltaT (d : Delta) : TNode → JPath → JPath → List Key → Nat →
    TNode × List Key × List (JPath × Key) × Nat
  | n, _, [], refs, c => (n, refs, [], c)
  | n, walked, [last], refs, c =>
    match d.type with
    | .CREATE =>
      let r := injectT (d.value.getD .undef) c
      (setKeyNodeT n last r.1, refs, [], r.2)
    | .CHANGE =>
      let r := injectT (d.value.getD .undef) c
      (setKeyNodeT n last r.1, refs, [], r.2)
    | .REMOVE =>
      match n with
      | .tarr id es => (setKeyNodeT (.tarr id es) last (.scal .sym), refs, [(walked, last)], c)
      | other => (delKeyT other last, refs, [], c)
  | n, walked, k :: k2 :: more, refs, c =>
    if k ∈ refs then
      let child := (getKeyT n k).getD (.scal .undef)
      let r := walkDeltaT d child (walked ++ [k]) (k2 :: more) refs c
      (setKeyNodeT n k r.1, r.2)
    else
      let sp := spreadToObjT c ((getKeyT n k).getD (.scal .undef))
      let r := walkDeltaT d sp.1 (walked ++ [k]) (k2 :: more) (k :: refs) sp.2
      (setKeyNodeT n k r.1, r.2)

/-- Tagged main Difference loop of the core `applyPatch`. -/
def applyDeltasCoreT : TNode → List Key → List (JPath × Key) → List Delta → Nat →
    TNode × List (JPath × Key) × Nat
  | n, _, q, [], c => (n, q, c)
  | n, refs, q, d :: ds, c =>
    let r := walkDeltaT d n [] d.path refs c
    applyDeltasCoreT r.1 r.2.1 (q ++ r.2.2.1) ds r.2.2.2

/-- Tagged tombstone compaction: `Array.prototype.filter` returns a new
array, so the caller attaches a fresh tag. -/
def efilterSymT : TElems → TElems
  | .nil => .nil
  | .cons h tl => if h = .scal .sym then efilterSymT tl else .cons h (efilterSymT tl)

/-- Result of the tagged core `applyPatch`. -/
inductive TPRes where
  | ok (n : TNode)
  | typeErr
deriving DecidableEq

/-- Tagged deferred compaction step (same TypeError as the untagged
model: the recorded key holds the tombstone, not the array). -/
def runQueueItemT (c : Nat) (n : TNode) (item : JPath × Key) : TPRes × Nat :=
  match getAtPathT n item.1 with
  | none => (.typeErr, c)
  | some t =>
    match getKeyT t item.2 with
    | some (.tarr _ es) =>
      (.ok (setAtPathT n (item.1 ++ [item.2]) (.tarr c (efilterSymT es))), c + 1)
    | _ => (.typeErr, c)

/-- Tagged deferred-compaction loop. -/
def runQueueT : TNode → List (JPath × Key) → Nat → TPRes × Nat
  | n, [], c => (.ok n, c)
  | n, item :: rest, c =>
    match runQueueItemT c n item with
    | (.ok n1, c1) => runQueueT n1 rest c1
    | (.typeErr, c1) => (.typeErr, c1)

/-- Tagged `applyPatch(target, patch)` of the core package: shallow-copy
the root, run the Difference loop, then the compactions. -/
def applyPatchCoreT (target : TNode) (patch : List Delta) (c : Nat) : TPRes × Nat :=
  let next0 :=
    match target with
    | .tarr _ es => (TNode.tarr c es, c + 1)
    | t => spreadToObjT c t
  let r := applyDeltasCoreT next0.1 [] [] patch next0.2
  runQueueT r.1 r.2.1 r.2.2

/-- `Trashly.mutate`'s publication pipeline for reference tracking:
`next = cloneDeep(this.current); mutator(next); this.current = next` —
the published snapshot is the mutated deep clone. -/
def trashlyPublishT (t : TNode) (mutT : TNode → TNode) (c : Nat) : TNode :=
  mutT (cloneDeepT t c).1

/-- The JS object spread `{...tfs, ...tp}` on tagged fields (the merge
`setState` publishes): a key of `tp` takes `tp`'s value reference
wholesale, every other key keeps the base object's value reference. -/
def mergeFT : TFields → TFields → TFields
  | .nil, p => p
  | .cons k v tl, p =>
    match getFT p k with
    | some w => .cons k w (mergeFT tl (removeFT p k))
    | none => .cons k v (mergeFT tl p)

/-! ## Round-trip development: sizes, membership, helper operations -/

mutual

/-- Size of a node, used as a termination measure for induction. -/
def nsize : Node → Nat
  | .arr es => esize es + 1
  | .obj fs => fsize fs + 1
  | _ => 1
termination_by structural n => n

/-- Size of an element list. -/
def esize : Elems → Nat
  | .nil => 1
  | .cons h tl => nsize h + esize tl + 1
termination_by structural es => es

/-- Size of a field list. -/
def fsize : Fields → Nat
  | .nil => 1
  | .cons _ v tl => nsize v + fsize tl + 1
termination_by structural fs => fs

end

/-- Membership of a key-value pair in a field list. -/
def memF (k : String) (v : Node) : Fields → Prop
  | .nil => False
  | .cons k1 v1 tl => (k = k1 ∧ v = v1) ∨ memF k v tl

/-- Do the two nodes have the same composite shape (both objects or both
arrays)?  The differ recurses exactly on such pairs. -/
def sameShape : Node → Node → Bool
  | .obj _, .obj _ => true
  | .arr _, .arr _ => true
  | _, _ => false

/-- No Difference in the list is a CREATE at an array index (the undo of
such a Difference is the `lodash.unset` hole-leaving deletion, which
breaks exact round trips). -/
def noArrCreate (ds : List Delta) : Bool :=
  ds.all fun d =>
    match d.type, d.path.getLast? with
    | .CREATE, some (.idx _) => false
    | _, _ => true

/-- Prepend a path prefix to a Difference. -/
def dprep (p : JPath) (d : Delta) : Delta :=
  { d with path := p ++ d.path }


/-- Membership of an element in an element list. -/
def memE (x : Node) : Elems → Prop
  | .nil => False
  | .cons h tl => x = h ∨ memE x tl

/-- The ledger invariant of reachable stores: the pointer stays between
`-1` (initial snapshot) and `history.length - 1` (the last entry). -/
def StoreInv (s : Store) : Prop :=
  -1 ≤ s.pointer ∧ s.pointer ≤ (s.history.length : Int) - 1

end Trashly

namespace Trashly

/-- Claim C1, counterexample: mutating `{list: [1]}` into
`{list: [1, 2]}` diffs to a CREATE at an array index; the immediate
`undo()` inverts CREATE with `lodash.unset`, which only deletes the array
slot without shortening the array, so `current` comes back as
`{list: [1, <hole>]}` — not structurally equal to the original snapshot
(not even up to object key order), refuting the unconditional round-trip
claim. -/
theorem C1_round_trip_cex :
    ((mkStore listOne).mutate (fun _ => listTwo)).current = listTwo ∧
      ((mkStore listOne).mutate (fun _ => listTwo)).undo.current = listHole ∧
      ((mkStore listOne).mutate (fun _ => listTwo)).undo.current ≠ listOne ∧
      equivN ((mkStore listOne).mutate (fun _ => listTwo)).undo.current listOne = false := by
  refine ⟨by decide, by decide, by decide, by decide⟩

/-- Claim C2, counterexample: `pause(); mutate(append 2); resume()` does
append exactly one coalesced Patch, but a single `undo()` after resume
publishes `{list: [1, <hole>]}` rather than the pre-pause snapshot
`{list: [1]}` (CREATE at an array index is inverted by `lodash.unset`,
which leaves a hole), refuting the restoration conjunct of the claim as
stated. -/
theorem C2_pause_coalescing_cex :
    (((mkStore listOne).pause.mutate (fun _ => listTwo)).resume).history.length = 1 ∧
      (((mkStore listOne).pause.mutate (fun _ => listTwo)).resume).undo.current = listHole ∧
      (((mkStore listOne).pause.mutate (fun _ => listTwo)).resume).undo.current ≠ listOne := by
  refine ⟨by decide, by decide, by decide⟩

/-- Claim C7, counterexample: `undo()` on a store with nothing to undo
returns before `notifySubscribers()` runs — it returns the store
completely unchanged, with the notification count still at its previous
value — so the claim that no-op undo calls still synchronously invoke
every listener is false (the same early return exists in `redo()`). -/
theorem C7_notify_cex :
    (mkStore steveN).undo = mkStore steveN ∧
      (mkStore steveN).undo.notifications = 0 ∧
      (mkStore steveN).redo = mkStore steveN := by
  refine ⟨by decide, by decide, by decide⟩

/-- Claim C3: the claim says a single Patch removing two non-adjacent
elements of a 5-element array yields the 3-element array of survivors
(tombstone marking, then one deferred compaction pass per mutated
array).  In the code, the compaction closure reads
`secondToLastKey = path[path.length - 1]` — the last key itself — so it
calls `.filter` on the tombstone symbol it just wrote into that slot,
which is a TypeError: the core `applyPatch` crashes on the claim's own
scenario instead of producing `[10, 30, 50]`. -/
theorem C3_array_removal_crashes :
    applyPatchCore fiveArr removeTwoPatch = PRes.typeErr ∧
      PRes.typeErr ≠ PRes.ok (.arr (.cons (.num 10) (.cons (.num 30) (.cons (.num 50) .nil)))) := by
  constructor
  · decide
  · decide

/-- Claim C5: the claim (and the spec) says `getCanUndo()` is true when
the store is paused with a pending change even though `pointer` is `-1`.
The getter's extra disjunct reads `pointer === 0 && isPaused &&
didChangeWhilePaused`, which is subsumed by `pointer >= 0` and therefore
dead: on the paused-dirty store with `pointer = -1` the getter returns
false, even though `undo()` called on that very store does perform an
undo (it folds the pending change and undoes it, changing `current`
back), so the claim is right about the intent and the getter is wrong. -/
theorem C5_canUndo_false_on_paused_dirty :
    pausedDirty.pointer = -1 ∧
      pausedDirty.isPaused = true ∧
      pausedDirty.didChangeWhilePaused = true ∧
      pausedDirty.getCanUndo = false ∧
      pausedDirty.undo.current = steveN ∧
      pausedDirty.undo.current ≠ pausedDirty.current := by
  refine ⟨by decide, by decide, by decide, by decide, by decide, by decide⟩

/-- Claim C4: committing while `pointer < history.length - 1` truncates
the redo future.  In general, a non-paused `mutate` publishes a history
equal to the first `pointer + 1` old entries plus the new patch; in the
claim's scenario (three committed mutations, two undos, then a new
mutation) the final history has exactly 2 entries — the first original
patch and the new one — the two undone entries are gone, `canRedo` is
false, and `redo()` returns the store completely unchanged. -/
theorem C4_truncation_on_edit_after_undo (init : Node) (m1 m2 m3 m : Node → Node) :
    (∀ (s : Store) (mm : Node → Node),
        (s.mutate mm).history =
          if s.isPaused then s.history
          else truncHistory s.history s.pointer ++ [diff s.current (mm s.current)]) ∧
      (((((mkStore init).mutate m1).mutate m2).mutate m3).undo.undo.mutate m).history.length = 2 ∧
      (((((mkStore init).mutate m1).mutate m2).mutate m3).undo.undo.mutate m).history.head? =
        ((((mkStore init).mutate m1).mutate m2).mutate m3).history.head? ∧
      (((((mkStore init).mutate m1).mutate m2).mutate m3).undo.undo.mutate m).canRedo = false ∧
      (((((mkStore init).mutate m1).mutate m2).mutate m3).undo.undo.mutate m).redo =
        ((((mkStore init).mutate m1).mutate m2).mutate m3).undo.undo.mutate m := by
  refine ⟨?_, ?_, ?_, ?_, ?_⟩
  · intro s mm
    cases s with
    | mk prev cur ptr hist ip dcp ntf =>
      cases ip
      · simp [Store.mutate, Store.willChange, Store.didChange]
      · cases dcp <;> simp [Store.mutate, Store.willChange, Store.didChange]
  · simp [Store.mutate, Store.willChange, Store.didChange, Store.undo, Store.canUndo,
      Store.applyPatch, mkStore, truncHistory]
  · simp [Store.mutate, Store.willChange, Store.didChange, Store.undo, Store.canUndo,
      Store.applyPatch, mkStore, truncHistory]
  · simp [Store.mutate, Store.willChange, Store.didChange, Store.undo, Store.canUndo,
      Store.canRedo, Store.applyPatch, mkStore, truncHistory]
  · simp [Store.mutate, Store.willChange, Store.didChange, Store.undo, Store.canUndo,
      Store.canRedo, Store.redo, Store.applyPatch, mkStore, truncHistory]

/-- Claim C7, amended: `mutate` (even when the patch is empty),
`setState`, `replaceState`, `patch`, `pause`, and `resume` each invoke
the subscribed listeners exactly once, synchronously, after publishing;
`undo` notifies exactly when it performs an undo (always after an
implicit fold of a pending in-pause change, otherwise exactly when
`canUndo`), and `redo` notifies exactly when it performs a redo step —
in particular no-op `undo()`/`redo()` calls, and a `redo()` on a paused
store with a pending change, do not notify at all. -/
theorem C7_notification_policy (s : Store) (m : Node → Node) (p : Fields)
    (st : Node) (pt : List Delta) :
    (s.mutate m).notifications = s.notifications + 1 ∧
      (s.setState p).notifications = s.notifications + 1 ∧
      (s.replaceState st).notifications = s.notifications + 1 ∧
      (s.patch pt).notifications = s.notifications + 1 ∧
      s.pause.notifications = s.notifications + 1 ∧
      s.resume.notifications = s.notifications + 1 ∧
      s.undo.notifications =
        (if s.isPaused && s.didChangeWhilePaused then s.notifications + 1
         else if s.canUndo then s.notifications + 1 else s.notifications) ∧
      s.redo.notifications =
        (if s.isPaused && s.didChangeWhilePaused then s.notifications
         else if s.canRedo then s.notifications + 1 else s.notifications) := by
  obtain ⟨prev, cur, ptr, hist, ip, dcp, ntf⟩ := s
  refine ⟨?_, ?_, ?_, ?_, ?_, ?_, ?_, ?_⟩
  · cases ip <;> cases dcp <;>
      simp [Store.mutate, Store.willChange, Store.didChange]
  · cases ip <;> cases dcp <;>
      simp [Store.setState, Store.willChange, Store.didChange]
  · cases ip <;> cases dcp <;>
      simp [Store.replaceState, Store.willChange, Store.didChange]
  · cases ip <;> cases dcp <;>
      simp [Store.patch, Store.willChange, Store.applyPatch]
  · simp [Store.pause]
  · cases dcp <;> simp [Store.resume]
  · cases ip
    · cases dcp <;>
        · simp [Store.undo, Store.canUndo]
          by_cases h : (0 : Int) ≤ ptr
          · simp [h, show ¬ptr < 0 by omega]
          · simp [h, show ptr < 0 by omega]
    · cases dcp
      · simp [Store.undo, Store.canUndo]
        by_cases h : (0 : Int) ≤ ptr
        · simp [h, show ¬ptr < 0 by omega]
        · simp [h, show ptr < 0 by omega]
      · have hlen : ¬(((truncHistory hist ptr ++ [diff prev cur]).length : Int) - 1) < 0 := by
          simp
        simp [Store.undo, Store.canUndo, hlen]
  · cases ip
    · cases dcp <;>
        · simp [Store.redo, Store.canRedo, Store.applyPatch]
          by_cases h : ptr < (hist.length : Int) - 1
          · simp [h, show ¬((hist.length : Int) ≤ ptr + 1) by omega]
          · simp [h, show (hist.length : Int) ≤ ptr + 1 by omega]
    · cases dcp
      · simp [Store.redo, Store.canRedo, Store.applyPatch]
        by_cases h : ptr < (hist.length : Int) - 1
        · simp [h, show ¬((hist.length : Int) ≤ ptr + 1) by omega]
        · simp [h, show (hist.length : Int) ≤ ptr + 1 by omega]
      · simp [Store.redo]

/-- Induction on the field-list spine (the `induction` tactic cannot be
used directly on one member of a mutual inductive family). -/
theorem Fields.spineIndF {P : Fields → Prop} (hnil : P .nil)
    (hcons : ∀ k v tl, P tl → P (.cons k v tl)) : ∀ fs, P fs
  | .nil => hnil
  | .cons k v tl => hcons k v tl (Fields.spineIndF hnil hcons tl)
termination_by structural fs => fs

/-- Induction on the element-list spine. -/
theorem Elems.spineIndE {P : Elems → Prop} (hnil : P .nil)
    (hcons : ∀ hd tl, P tl → P (.cons hd tl)) : ∀ es, P es
  | .nil => hnil
  | .cons hd tl => hcons hd tl (Elems.spineIndE hnil hcons tl)
termination_by structural es => es

/-- Absence of a key is the same as a `none` lookup. -/
theorem hasF_eq_false (fs : Fields) (k : String) (h : hasF fs k = false) :
    getF fs k = none := by
  cases hg : getF fs k with
  | none => rfl
  | some v => rw [hasF, hg] at h; cases h

/-- Removing one key leaves lookups of other keys unchanged. -/
theorem removeF_getF_ne (fs : Fields) (key k : String) (h : k ≠ key) :
    getF (removeF fs key) k = getF fs k := by
  induction fs using Fields.spineIndF with
  | hnil => rfl
  | hcons k1 v1 tl ih =>
    show getF (if k1 = key then tl else .cons k1 v1 (removeF tl key)) k = _
    by_cases h1 : k1 = key
    · rw [if_pos h1]
      show getF tl k = if k1 = k then some v1 else getF tl k
      rw [if_neg (fun e => h (h1 ▸ e.symm))]
    · rw [if_neg h1]
      show (if k1 = k then some v1 else getF (removeF tl key) k) =
        if k1 = k then some v1 else getF tl k
      by_cases h2 : k1 = k
      · rw [if_pos h2, if_pos h2]
      · rw [if_neg h2, if_neg h2, ih]

/-- A field value found by lookup is smaller than its field list. -/
theorem getF_size (fs : Fields) (k : String) (v : Node) :
    getF fs k = some v → nsize v < fsize fs := by
  induction fs using Fields.spineIndF with
  | hnil => intro h; cases h
  | hcons k1 v1 tl ih =>
    intro h
    show nsize v < nsize v1 + fsize tl + 1
    by_cases h1 : k1 = k
    · have : some v1 = some v := by simpa [getF, h1] using h
      cases this
      omega
    · have := ih (by simpa [getF, h1] using h)
      omega

/-- A member value is smaller than its field list. -/
theorem memF_size (fs : Fields) (k : String) (v : Node) :
    memF k v fs → nsize v < fsize fs := by
  induction fs using Fields.spineIndF with
  | hnil => intro h; cases h
  | hcons k1 v1 tl ih =>
    intro h
    show nsize v < nsize v1 + fsize tl + 1
    rcases h with ⟨_, rfl⟩ | h
    · omega
    · have := ih h
      omega

/-- An element found by index is smaller than its element list. -/
theorem eget_size (es : Elems) (i : Nat) (x : Node) :
    eget es i = some x → nsize x < esize es := by
  induction es using Elems.spineIndE generalizing i with
  | hnil => intro h; cases h
  | hcons h1 tl ih =>
    intro h
    show nsize x < nsize h1 + esize tl + 1
    match i, h with
    | 0, h => cases h; omega
    | n + 1, h =>
      have := ih n h
      omega

/-- Lookup after setting the same key. -/
theorem getF_setF_self (fs : Fields) (k : String) (v : Node) :
    getF (setF fs k v) k = some v := by
  induction fs using Fields.spineIndF with
  | hnil => simp [setF, getF]
  | hcons k1 v1 tl ih =>
    by_cases h1 : k1 = k <;> simp [setF, getF, h1, ih]

/-- Lookup of an unrelated key after setting. -/
theorem getF_setF_ne (fs : Fields) (k k2 : String) (v : Node) (h : k2 ≠ k) :
    getF (setF fs k v) k2 = getF fs k2 := by
  induction fs using Fields.spineIndF with
  | hnil => simp [setF, getF, Ne.symm h]
  | hcons k1 v1 tl ih =>
    by_cases h1 : k1 = k
    · subst h1
      simp [setF, getF, Ne.symm h]
    · by_cases h2 : k1 = k2 <;> simp [setF, getF, h1, h2, ih, h]

/-- Setting a key to the value it already has is the identity. -/
theorem setF_self (fs : Fields) (k : String) (v : Node) (h : getF fs k = some v) :
    setF fs k v = fs := by
  induction fs using Fields.spineIndF with
  | hnil => cases h
  | hcons k1 v1 tl ih =>
    by_cases h1 : k1 = k
    · have : some v1 = some v := by simpa [getF, h1] using h
      cases this
      simp [setF, h1]
    · simp [setF, h1, ih (by simpa [getF, h1] using h)]

/-- Overwriting the same key twice keeps only the last write. -/
theorem setF_setF (fs : Fields) (k : String) (v w : Node) :
    setF (setF fs k v) k w = setF fs k w := by
  induction fs using Fields.spineIndF with
  | hnil => simp [setF]
  | hcons k1 v1 tl ih =>
    by_cases h1 : k1 = k <;> simp [setF, h1, ih]

/-- Setting a key preserves key distinctness. -/
theorem setF_keysNodupF (fs : Fields) (k : String) (v : Node)
    (h : keysNodupF fs = true) : keysNodupF (setF fs k v) = true := by
  induction fs using Fields.spineIndF with
  | hnil => simp [setF, keysNodupF, hasF, getF]
  | hcons k1 v1 tl ih =>
    simp only [keysNodupF, Bool.and_eq_true, Bool.not_eq_eq_eq_not, Bool.not_true] at h
    by_cases h1 : k1 = k
    · subst h1
      simp [setF, keysNodupF, h.1, h.2]
    · have hh : hasF (setF tl k v) k1 = false := by
        rw [hasF, getF_setF_ne tl k k1 v (Ne.intro h1), hasF_eq_false tl k1 h.1]
        rfl
      simp [setF, h1, keysNodupF, hh, ih h.2]

/-- Removing a key from a duplicate-free field list removes it fully. -/
theorem removeF_getF_self (fs : Fields) (k : String)
    (h : keysNodupF fs = true) : getF (removeF fs k) k = none := by
  induction fs using Fields.spineIndF with
  | hnil => rfl
  | hcons k1 v1 tl ih =>
    simp only [keysNodupF, Bool.and_eq_true] at h
    by_cases h1 : k1 = k
    · subst h1
      simp only [removeF, if_pos rfl]
      exact hasF_eq_false tl k1 (by simpa using h.1)
    · simp [removeF, getF, h1, ih h.2]

/-- Removing a key preserves key distinctness. -/
theorem removeF_keysNodupF (fs : Fields) (k : String)
    (h : keysNodupF fs = true) : keysNodupF (removeF fs k) = true := by
  induction fs using Fields.spineIndF with
  | hnil => rfl
  | hcons k1 v1 tl ih =>
    simp only [keysNodupF, Bool.and_eq_true] at h
    by_cases h1 : k1 = k
    · simpa [removeF, h1] using h.2
    · have hh : hasF (removeF tl k) k1 = false := by
        rw [hasF, removeF_getF_ne tl k k1 (Ne.intro h1),
          hasF_eq_false tl k1 (by simpa using h.1)]
        rfl
      simp [removeF, h1, keysNodupF, hh, ih h.2]

/-- A member key is present. -/
theorem memF_hasF (fs : Fields) (k : String) (v : Node) (h : memF k v fs) :
    hasF fs k = true := by
  induction fs using Fields.spineIndF with
  | hnil => cases h
  | hcons k1 v1 tl ih =>
    rcases h with ⟨rfl, rfl⟩ | h
    · simp [hasF, getF]
    · by_cases h1 : k1 = k
      · simp [hasF, getF, h1]
      · rw [hasF] at ih ⊢
        rw [getF]
        rw [if_neg h1]
        exact ih h

/-- A successful lookup is a membership. -/
theorem getF_memF (fs : Fields) (k : String) (v : Node) (h : getF fs k = some v) :
    memF k v fs := by
  induction fs using Fields.spineIndF with
  | hnil => cases h
  | hcons k1 v1 tl ih =>
    by_cases h1 : k1 = k
    · have : some v1 = some v := by simpa [getF, h1] using h
      cases this
      exact Or.inl ⟨h1.symm, rfl⟩
    · exact Or.inr (ih (by simpa [getF, h1] using h))

/-- In a duplicate-free field list, membership determines the lookup. -/
theorem getF_of_memF_nodup (fs : Fields) (k : String) (v : Node)
    (hn : keysNodupF fs = true) (h : memF k v fs) : getF fs k = some v := by
  induction fs using Fields.spineIndF with
  | hnil => cases h
  | hcons k1 v1 tl ih =>
    simp only [keysNodupF, Bool.and_eq_true] at hn
    rcases h with ⟨rfl, rfl⟩ | h
    · simp [getF]
    · have h1 : k1 ≠ k := by
        intro e
        subst e
        have := memF_hasF tl k1 v h
        rw [this] at hn
        simpa using hn.1
      simp [getF, h1, ih hn.2 h]

/-- A present key has a value. -/
theorem hasF_getF (fs : Fields) (k : String) (h : hasF fs k = true) :
    ∃ v, getF fs k = some v := by
  simp only [hasF, Option.isSome_iff_exists] at h
  exact h

/-- Length of an element-list append. -/
theorem elength_eappend (xs ys : Elems) :
    elength (eappend xs ys) = elength xs + elength ys := by
  induction xs using Elems.spineIndE with
  | hnil => simp [eappend, elength]
  | hcons h1 tl ih => simp [eappend, elength, ih]; omega

/-- Appending the empty element list. -/
theorem eappend_nil (xs : Elems) : eappend xs .nil = xs := by
  induction xs using Elems.spineIndE with
  | hnil => rfl
  | hcons h1 tl ih => simp [eappend, ih]

/-- Associativity of element-list append. -/
theorem eappend_assoc (xs ys zs : Elems) :
    eappend (eappend xs ys) zs = eappend xs (eappend ys zs) := by
  induction xs using Elems.spineIndE with
  | hnil => rfl
  | hcons h1 tl ih => simp [eappend, ih]

/-- Reading just past a prefix lands on the next element. -/
theorem eget_eappend_len (pre : Elems) (y : Node) (ys : Elems) :
    eget (eappend pre (.cons y ys)) (elength pre) = some y := by
  induction pre using Elems.spineIndE with
  | hnil => rfl
  | hcons h1 tl ih => simpa [eappend, elength, eget] using ih

/-- A successful indexed read is in range. -/
theorem eget_lt (es : Elems) (i : Nat) (x : Node) (h : eget es i = some x) :
    i < elength es := by
  induction es using Elems.spineIndE generalizing i with
  | hnil => cases h
  | hcons h1 tl ih =>
    match i, h with
    | 0, h => simp [elength]
    | n + 1, h =>
      have := ih n h
      simp [elength]
      omega

/-- Setting just past a prefix replaces the next element. -/
theorem esetIn_eappend_len (pre : Elems) (y v : Node) (ys : Elems) :
    esetIn (eappend pre (.cons y ys)) (elength pre) v = eappend pre (.cons v ys) := by
  induction pre using Elems.spineIndE with
  | hnil => rfl
  | hcons h1 tl ih => simpa [eappend, elength, esetIn] using ih

/-- Reading back an in-range write. -/
theorem eget_esetIn_self (es : Elems) (i : Nat) (v : Node) (h : i < elength es) :
    eget (esetIn es i v) i = some v := by
  induction es using Elems.spineIndE generalizing i with
  | hnil => simp [elength] at h
  | hcons h1 tl ih =>
    match i with
    | 0 => rfl
    | n + 1 =>
      have : n < elength tl := by simpa [elength] using h
      simpa [esetIn, eget] using ih n this

/-- Writing the same slot twice keeps only the last write. -/
theorem esetIn_esetIn (es : Elems) (i : Nat) (v w : Node) :
    esetIn (esetIn es i v) i w = esetIn es i w := by
  induction es using Elems.spineIndE generalizing i with
  | hnil => rfl
  | hcons h1 tl ih =>
    match i with
    | 0 => rfl
    | n + 1 => simp [esetIn, ih n]

/-- Writing back the value a slot already holds is the identity. -/
theorem esetIn_self (es : Elems) (i : Nat) (x : Node) (h : eget es i = some x) :
    esetIn es i x = es := by
  induction es using Elems.spineIndE generalizing i with
  | hnil => cases h
  | hcons h1 tl ih =>
    match i, h with
    | 0, h =>
      have : some h1 = some x := h
      cases this
      rfl
    | n + 1, h => simp [esetIn, ih n h]

/-- In-range writes keep the length. -/
theorem elength_esetIn (es : Elems) (i : Nat) (v : Node) :
    elength (esetIn es i v) = elength es := by
  induction es using Elems.spineIndE generalizing i with
  | hnil => rfl
  | hcons h1 tl ih =>
    match i with
    | 0 => rfl
    | n + 1 => simp [esetIn, elength, ih n]

/-- An in-range array assignment is a slot replacement. -/
theorem setKeyNode_arr_in (es : Elems) (i : Nat) (v : Node) (h : i < elength es) :
    setKeyNode (.arr es) (.idx i) v = .arr (esetIn es i v) := by
  simp [setKeyNode, esetExtend, h]

/-- Assigning one past the end appends. -/
theorem setKeyNode_arr_append (pre : Elems) (v : Node) :
    setKeyNode (.arr pre) (.idx (elength pre)) v = .arr (eappend pre (.cons v .nil)) := by
  simp [setKeyNode, esetExtend, Nat.sub_self, eholes, eappend]

/-- A member element is smaller than its element list. -/
theorem memE_size (es : Elems) (x : Node) (h : memE x es) : nsize x < esize es := by
  induction es using Elems.spineIndE with
  | hnil => cases h
  | hcons h1 tl ih =>
    show nsize x < nsize h1 + esize tl + 1
    rcases h with rfl | h
    · omega
    · have := ih h
      omega

/-- Members of a well-formed element list are well-formed. -/
theorem memE_wfE (es : Elems) (x : Node) (hw : wfE es = true) (h : memE x es) :
    wfN x = true := by
  induction es using Elems.spineIndE with
  | hnil => cases h
  | hcons h1 tl ih =>
    simp only [wfE, Bool.and_eq_true] at hw
    rcases h with rfl | h
    · exact hw.1
    · exact ih hw.2 h

/-- Values of a well-formed field list are well-formed. -/
theorem memF_wfF (fs : Fields) (k : String) (v : Node) (hw : wfF fs = true)
    (h : memF k v fs) : wfN v = true := by
  induction fs using Fields.spineIndF with
  | hnil => cases h
  | hcons k1 v1 tl ih =>
    simp only [wfF, Bool.and_eq_true] at hw
    rcases h with ⟨_, rfl⟩ | h
    · exact hw.1
    · exact ih hw.2 h

/-- Build `equivF` from a pointwise witness for every entry. -/
theorem equivF_of_pointwise (fb : Fields) : ∀ (fs : Fields),
    (∀ k w, memF k w fs → ∃ v, getF fb k = some v ∧ equivN w v = true) →
    equivF fb fs = true := by
  intro fs
  induction fs using Fields.spineIndF with
  | hnil => intro _; rfl
  | hcons k1 w1 tl ih =>
    intro h
    obtain ⟨v, hv, he⟩ := h k1 w1 (Or.inl ⟨rfl, rfl⟩)
    show ((match getF fb k1 with
      | none => false
      | some vb => equivN w1 vb) && equivF fb tl) = true
    rw [hv]
    simp only [Bool.and_eq_true]
    exact ⟨he, ih (fun k w hm => h k w (Or.inr hm))⟩

/-- Build `keysSubF` from a pointwise presence witness. -/
theorem keysSubF_of (fs : Fields) : ∀ (fb2 : Fields),
    (∀ k v, memF k v fb2 → hasF fs k = true) → keysSubF fs fb2 = true := by
  intro fb2
  induction fb2 using Fields.spineIndF with
  | hnil => intro _; rfl
  | hcons k1 v1 tl ih =>
    intro h
    show (hasF fs k1 && keysSubF fs tl) = true
    simp only [Bool.and_eq_true]
    exact ⟨h k1 v1 (Or.inl ⟨rfl, rfl⟩), ih (fun k v hm => h k v (Or.inr hm))⟩

/-- Build `equivE` reflexivity from pointwise reflexivity. -/
theorem equivE_refl_of : ∀ (es : Elems),
    (∀ x, memE x es → equivN x x = true) → equivE es es = true := by
  intro es
  induction es using Elems.spineIndE with
  | hnil => intro _; rfl
  | hcons h1 tl ih =>
    intro h
    show (equivN h1 h1 && equivE tl tl) = true
    simp only [Bool.and_eq_true]
    exact ⟨h h1 (Or.inl rfl), ih (fun x hm => h x (Or.inr hm))⟩

/-- Structural equivalence is reflexive on well-formed snapshots
(bounded form for the size induction). -/
theorem equivN_refl_le : ∀ (f : Nat) (a : Node), nsize a ≤ f → wfN a = true →
    equivN a a = true := by
  intro f
  induction f with
  | zero =>
    intro a ha _
    cases a <;> simp [nsize] at ha
  | succ f ih =>
    intro a ha hw
    cases a with
    | obj fs =>
      simp only [wfN, Bool.and_eq_true] at hw
      show (equivF fs fs && keysSubF fs fs) = true
      simp only [Bool.and_eq_true]
      constructor
      · refine equivF_of_pointwise fs fs (fun k w hm => ⟨w, ?_, ?_⟩)
        · exact getF_of_memF_nodup fs k w hw.1 hm
        · have hs : nsize w ≤ f := by
            have h1 := memF_size fs k w hm
            have h2 : fsize fs + 1 ≤ f + 1 := by simpa [nsize] using ha
            omega
          exact ih w hs (memF_wfF fs k w hw.2 hm)
      · exact keysSubF_of fs fs (fun k v hm => memF_hasF fs k v hm)
    | arr es =>
      show equivE es es = true
      refine equivE_refl_of es (fun x hm => ?_)
      have hs : nsize x ≤ f := by
        have h1 := memE_size es x hm
        have h2 : esize es + 1 ≤ f + 1 := by simpa [nsize] using ha
        omega
      exact ih x hs (memE_wfE es x hw hm)
    | null => rfl
    | undef => simp [wfN] at hw
    | sym => simp [wfN] at hw
    | bool b => simp [equivN]
    | num n => simp [equivN]
    | str s => simp [equivN]

/-- Structural equivalence is reflexive on well-formed snapshots. -/
theorem equivN_refl (a : Node) (hw : wfN a = true) : equivN a a = true :=
  equivN_refl_le (nsize a) a le_rfl hw

/-! ## Path-prefix structure of the differ output -/

/-- Node sizes are positive. -/
theorem nsize_pos (a : Node) : 1 ≤ nsize a := by
  cases a <;> simp [nsize]

/-- Element-list sizes are positive. -/
theorem esize_pos (es : Elems) : 1 ≤ esize es := by
  cases es <;> simp [esize]

/-- Field-list sizes are positive. -/
theorem fsize_pos (fs : Fields) : 1 ≤ fsize fs := by
  cases fs <;> simp [fsize]

/-- Composing path prefixes. -/
theorem dprep_dprep (p q : JPath) (d : Delta) :
    dprep p (dprep q d) = dprep (p ++ q) d := by
  simp [dprep]

/-- The CREATE tail of the array rule, under a path prefix. -/
theorem diffECreates_prepend (p : JPath) : ∀ (i : Nat) (es : Elems),
    diffECreates p i es = (diffECreates [] i es).map (dprep p) := by
  intro i es
  induction es using Elems.spineIndE generalizing i with
  | hnil => rfl
  | hcons y ys ih => simp [diffECreates, dprep, ih]

/-- The CREATE part of the object rule, under a path prefix. -/
theorem diffFAdd_prepend (p : JPath) (fa : Fields) : ∀ (fb : Fields),
    diffFAdd p fa fb = (diffFAdd [] fa fb).map (dprep p) := by
  intro fb
  induction fb using Fields.spineIndF with
  | hnil => rfl
  | hcons k vb tl ih =>
    by_cases h : hasF fa k = true <;> simp [diffFAdd, h, dprep, ih]

/-- The differ emits, under a path prefix `p`, exactly its root-path
output with `p` prepended to every Difference (joint statement for the
three mutually recursive traversals). -/
theorem diff_prepend_all : ∀ (f : Nat),
    (∀ (a b : Node) (p : JPath), nsize a + nsize b ≤ f →
      diffN p a b = (diffN [] a b).map (dprep p)) ∧
    (∀ (fb fa : Fields) (p : JPath), fsize fb + fsize fa ≤ f →
      diffFRem p fb fa = (diffFRem [] fb fa).map (dprep p)) ∧
    (∀ (i : Nat) (ea eb : Elems) (p : JPath), esize ea + esize eb ≤ f →
      diffE p i ea eb = (diffE [] i ea eb).map (dprep p)) := by
  intro f
  induction f with
  | zero =>
    refine ⟨fun a b p h => ?_, fun fb fa p h => ?_, fun i ea eb p h => ?_⟩
    · have := nsize_pos a; have := nsize_pos b; omega
    · have := fsize_pos fb; have := fsize_pos fa; omega
    · have := esize_pos ea; have := esize_pos eb; omega
  | succ f ih =>
    obtain ⟨ih1, ih2, ih3⟩ := ih
    have hstep : ∀ (x y : Node) (q : JPath), nsize x + nsize y ≤ f →
        ∀ (k : Key), diffN (q ++ [k]) x y = (diffN [k] x y).map (dprep q) := by
      intro x y q hxy k
      rw [ih1 x y (q ++ [k]) hxy, ih1 x y [k] hxy, List.map_map]
      apply List.map_congr_left
      intro d _
      simp [Function.comp, dprep_dprep]
    refine ⟨fun a b p h => ?_, fun fb fa p h => ?_, fun i ea eb p h => ?_⟩
    · by_cases hab : a = b
      · subst hab
        simp [diffN.eq_def]
      · simp only [diffN.eq_def, if_neg hab]
        cases a <;> cases b <;>
            simp only [List.map_cons, List.map_nil, dprep, List.append_nil] <;>
            try rfl
        · rename_i ea eb
          have hs : esize ea + esize eb ≤ f := by
            simp only [nsize] at h
            omega
          exact ih3 0 ea eb p hs
        · rename_i fa fb
          have hs : fsize fb + fsize fa ≤ f := by
            simp only [nsize] at h
            omega
          rw [ih2 fb fa p hs, diffFAdd_prepend p fa fb, List.map_append]
    · induction fa using Fields.spineIndF with
      | hnil => rfl
      | hcons k1 va tl ihtl =>
        have htl : fsize fb + fsize tl ≤ f + 1 := by
          have := nsize_pos va
          simp only [fsize] at h ⊢
          omega
        cases hg : getF fb k1 with
        | none =>
          simp [diffFRem, hg, dprep, ihtl htl]
        | some vb =>
          have hsz : nsize va + nsize vb ≤ f := by
            have h1 := getF_size fb k1 vb hg
            have h2 := fsize_pos tl
            simp only [fsize] at h
            omega
          simp only [diffFRem, hg, List.map_append, List.nil_append]
          rw [hstep va vb p hsz (Key.str k1), ihtl htl]
    · induction ea using Elems.spineIndE generalizing eb i with
      | hnil =>
        cases eb with
        | nil => rfl
        | cons y ys => exact diffECreates_prepend p i (.cons y ys)
      | hcons x xs ihxs =>
        cases eb with
        | nil =>
          have hxs : esize xs + esize Elems.nil ≤ f + 1 := by
            have := nsize_pos x
            simp only [esize] at h ⊢
            omega
          simp [diffE, dprep, ihxs (i + 1) Elems.nil hxs]
        | cons y ys =>
          have hxs : esize xs + esize ys ≤ f + 1 := by
            have := nsize_pos x; have := nsize_pos y
            simp only [esize] at h ⊢
            omega
          have hsz : nsize x + nsize y ≤ f := by
            have := esize_pos xs; have := esize_pos ys
            simp only [esize] at h
            omega
          simp only [diffE, List.map_append, List.nil_append]
          rw [hstep x y p hsz (Key.idx i), ihxs (i + 1) ys hxs]

/-- Root-path form of the prefix property. -/
theorem diffN_prepend (a b : Node) (p : JPath) :
    diffN p a b = (diffN [] a b).map (dprep p) :=
  (diff_prepend_all (nsize a + nsize b)).1 a b p le_rfl

/-- CREATE-tail Differences have nonempty paths. -/
theorem diffECreates_path_ne : ∀ (es : Elems) (i : Nat),
    ∀ d ∈ diffECreates [] i es, d.path ≠ [] := by
  intro es
  induction es using Elems.spineIndE with
  | hnil => intro i d hd; cases hd
  | hcons y ys ih =>
    intro i d hd
    rcases List.mem_cons.mp hd with rfl | hd
    · simp
    · exact ih (i + 1) d hd

/-- CREATE-part Differences have nonempty paths. -/
theorem diffFAdd_path_ne (fa : Fields) : ∀ (fbl : Fields),
    ∀ d ∈ diffFAdd [] fa fbl, d.path ≠ [] := by
  intro fbl
  induction fbl using Fields.spineIndF with
  | hnil => intro d hd; cases hd
  | hcons k vb tl ih =>
    intro d hd
    by_cases h : hasF fa k = true
    · simp only [diffFAdd, h, if_true, List.nil_append] at hd
      exact ih d hd
    · simp only [diffFAdd, h, if_false] at hd
      rcases List.mem_append.mp hd with hd | hd
      · rcases List.mem_singleton.mp hd with rfl
        simp
      · exact ih d hd

/-- REMOVE/recurse/CHANGE-part Differences have nonempty paths. -/
theorem diffFRem_path_ne (fb : Fields) : ∀ (fa : Fields),
    ∀ d ∈ diffFRem [] fb fa, d.path ≠ [] := by
  intro fa
  induction fa using Fields.spineIndF with
  | hnil => intro d hd; cases hd
  | hcons k1 va tl ih =>
    intro d hd
    cases hg : getF fb k1 with
    | none =>
      simp only [diffFRem, hg, List.nil_append] at hd
      rcases List.mem_append.mp hd with hd | hd
      · rcases List.mem_singleton.mp hd with rfl
        simp
      · exact ih d hd
    | some vb =>
      simp only [diffFRem, hg, List.nil_append] at hd
      rcases List.mem_append.mp hd with hd | hd
      · rw [diffN_prepend va vb [Key.str k1]] at hd
        obtain ⟨d0, _, rfl⟩ := List.mem_map.mp hd
        simp [dprep]
      · exact ih d hd

/-- Array-rule Differences have nonempty paths. -/
theorem diffE_path_ne : ∀ (ea : Elems) (i : Nat) (eb : Elems),
    ∀ d ∈ diffE [] i ea eb, d.path ≠ [] := by
  intro ea
  induction ea using Elems.spineIndE with
  | hnil =>
    intro i eb d hd
    cases eb with
    | nil => cases hd
    | cons y ys => exact diffECreates_path_ne (.cons y ys) i d hd
  | hcons x xs ih =>
    intro i eb d hd
    cases eb with
    | nil =>
      rcases List.mem_cons.mp hd with rfl | hd
      · simp
      · exact ih (i + 1) .nil d hd
    | cons y ys =>
      simp only [diffE, List.nil_append] at hd
      rcases List.mem_append.mp hd with hd | hd
      · rw [diffN_prepend x y [Key.idx i]] at hd
        obtain ⟨d0, _, rfl⟩ := List.mem_map.mp hd
        simp [dprep]
      · exact ih (i + 1) ys d hd

/-- When the differ recurses on two same-shaped composites, every emitted
Difference has a nonempty path. -/
theorem diffN_path_ne (a b : Node) (hs : sameShape a b = true) :
    ∀ d ∈ diffN [] a b, d.path ≠ [] := by
  intro d hd
  by_cases hab : a = b
  · rw [hab] at hd
    simp [diffN.eq_def] at hd
  · cases a <;> cases b <;> simp [sameShape] at hs <;>
      rw [diffN.eq_def, if_neg hab] at hd
    · exact diffE_path_ne _ 0 _ d hd
    · rcases List.mem_append.mp hd with hd | hd
      · exact diffFRem_path_ne _ _ d hd
      · exact diffFAdd_path_ne _ _ d hd

/-- `noArrCreate` distributes over append. -/
theorem noArrCreate_append (ds1 ds2 : List Delta) :
    noArrCreate (ds1 ++ ds2) = (noArrCreate ds1 && noArrCreate ds2) := by
  simp [noArrCreate, List.all_append]

/-- Prefixing nonempty paths does not affect `noArrCreate`. -/
theorem noArrCreate_map_dprep (p : JPath) : ∀ (ds : List Delta),
    (∀ d ∈ ds, d.path ≠ []) → noArrCreate (ds.map (dprep p)) = noArrCreate ds := by
  intro ds
  induction ds with
  | nil => intro _; rfl
  | cons d tl ih =>
    intro h
    have hd2 : (p ++ d.path).getLast? = d.path.getLast? :=
      List.getLast?_append_of_ne_nil p (h d (List.mem_cons_self d tl))
    show noArrCreate (dprep p d :: tl.map (dprep p)) = noArrCreate (d :: tl)
    simp only [noArrCreate, List.all_cons] at ih ⊢
    rw [ih (fun x hx => h x (List.mem_cons_of_mem d hx))]
    congr 1
    show (match d.type, (p ++ d.path).getLast? with
      | DKind.CREATE, some (Key.idx _) => false
      | _, _ => true) =
      (match d.type, d.path.getLast? with
      | DKind.CREATE, some (Key.idx _) => false
      | _, _ => true)
    rw [hd2]

/-! ## Lifting: applying child-prefixed Differences inside a container -/

/-- Unfolding: inverse application over a cons. -/
theorem applyUndoNode_cons (n : Node) (d : Delta) (tl : List Delta) :
    applyUndoNode n (d :: tl) = applyUndoNode (undoStep n d) tl := rfl

/-- Unfolding: inverse application over an append. -/
theorem applyUndoNode_append (n : Node) (ds1 ds2 : List Delta) :
    applyUndoNode n (ds1 ++ ds2) = applyUndoNode (applyUndoNode n ds1) ds2 :=
  List.foldl_append undoStep n ds1 ds2

/-- `lodash.set` with a nonempty path keeps an object an object. -/
theorem lodashSet_obj (fs : Fields) (p : JPath) (v : Node) (h : p ≠ []) :
    ∃ gs, lodashSet (.obj fs) p v = .obj gs := by
  cases p with
  | nil => cases h rfl
  | cons k rest =>
    cases rest with
    | nil => cases k <;> exact ⟨_, rfl⟩
    | cons k2 r2 => cases k <;> exact ⟨_, rfl⟩

/-- `lodash.set` with a nonempty path keeps an array an array. -/
theorem lodashSet_arr (es : Elems) (p : JPath) (v : Node) (h : p ≠ []) :
    ∃ ds2, lodashSet (.arr es) p v = .arr ds2 := by
  cases p with
  | nil => cases h rfl
  | cons k rest =>
    cases rest with
    | nil => cases k <;> exact ⟨_, rfl⟩
    | cons k2 r2 => cases k <;> exact ⟨_, rfl⟩

/-- `lodash.unset` with a nonempty path keeps an object an object. -/
theorem lodashUnset_obj (fs : Fields) (p : JPath) (h : p ≠ []) :
    ∃ gs, lodashUnset (.obj fs) p = .obj gs := by
  cases p with
  | nil => cases h rfl
  | cons k rest =>
    cases rest with
    | nil => cases k <;> exact ⟨_, rfl⟩
    | cons k2 r2 =>
      cases k with
      | str s =>
        cases hg : getF fs s with
        | none =>
          refine ⟨fs, ?_⟩
          show (match getKey (.obj fs) (.str s) with
            | some c => setKeyNode (.obj fs) (.str s) (lodashUnset c (k2 :: r2))
            | none => Node.obj fs) = Node.obj fs
          show (match getF fs s with
            | some c => setKeyNode (.obj fs) (.str s) (lodashUnset c (k2 :: r2))
            | none => Node.obj fs) = Node.obj fs
          rw [hg]
        | some c =>
          refine ⟨setF fs s (lodashUnset c (k2 :: r2)), ?_⟩
          show (match getF fs s with
            | some c => setKeyNode (.obj fs) (.str s) (lodashUnset c (k2 :: r2))
            | none => Node.obj fs) = _
          rw [hg]
          rfl
      | idx i =>
        cases hg : getF fs (toString i) with
        | none =>
          refine ⟨fs, ?_⟩
          show (match getF fs (toString i) with
            | some c => setKeyNode (.obj fs) (.idx i) (lodashUnset c (k2 :: r2))
            | none => Node.obj fs) = Node.obj fs
          rw [hg]
        | some c =>
          refine ⟨setF fs (toString i) (lodashUnset c (k2 :: r2)), ?_⟩
          show (match getF fs (toString i) with
            | some c => setKeyNode (.obj fs) (.idx i) (lodashUnset c (k2 :: r2))
            | none => Node.obj fs) = _
          rw [hg]
          rfl

/-- `lodash.unset` with a nonempty path keeps an array an array. -/
theorem lodashUnset_arr (es : Elems) (p : JPath) (h : p ≠ []) :
    ∃ ds2, lodashUnset (.arr es) p = .arr ds2 := by
  cases p with
  | nil => cases h rfl
  | cons k rest =>
    cases rest with
    | nil => cases k <;> exact ⟨_, rfl⟩
    | cons k2 r2 =>
      cases k with
      | str s => exact ⟨es, rfl⟩
      | idx i =>
        cases hg : eget es i with
        | none =>
          refine ⟨es, ?_⟩
          show (match eget es i with
            | some c => setKeyNode (.arr es) (.idx i) (lodashUnset c (k2 :: r2))
            | none => Node.arr es) = Node.arr es
          rw [hg]
        | some c =>
          refine ⟨esetExtend es i (lodashUnset c (k2 :: r2)), ?_⟩
          show (match eget es i with
            | some c => setKeyNode (.arr es) (.idx i) (lodashUnset c (k2 :: r2))
            | none => Node.arr es) = _
          rw [hg]
          rfl

/-- A single inverse step with a nonempty path keeps an object an
object. -/
theorem undoStep_obj (fs : Fields) (d : Delta) (h : d.path ≠ []) :
    ∃ gs, undoStep (.obj fs) d = .obj gs := by
  obtain ⟨dt, dp, dv, dov⟩ := d
  cases dt with
  | CREATE => exact lodashUnset_obj fs dp h
  | CHANGE => exact lodashSet_obj fs dp _ h
  | REMOVE => exact lodashSet_obj fs dp _ h

/-- A single inverse step with a nonempty path keeps an array an
array. -/
theorem undoStep_arr (es : Elems) (d : Delta) (h : d.path ≠ []) :
    ∃ ds2, undoStep (.arr es) d = .arr ds2 := by
  obtain ⟨dt, dp, dv, dov⟩ := d
  cases dt with
  | CREATE => exact lodashUnset_arr es dp h
  | CHANGE => exact lodashSet_arr es dp _ h
  | REMOVE => exact lodashSet_arr es dp _ h

/-- A single inverse step with a nonempty path preserves compositeness. -/
theorem undoStep_composite (c : Node) (d : Delta) (h : d.path ≠ [])
    (hc : isComposite c = true) : isComposite (undoStep c d) = true := by
  cases c with
  | arr es =>
    obtain ⟨ds2, he⟩ := undoStep_arr es d h
    rw [he]
    rfl
  | obj fs =>
    obtain ⟨gs, he⟩ := undoStep_obj fs d h
    rw [he]
    rfl
  | null => simp [isComposite] at hc
  | undef => simp [isComposite] at hc
  | sym => simp [isComposite] at hc
  | bool b => simp [isComposite] at hc
  | num n => simp [isComposite] at hc
  | str s => simp [isComposite] at hc

/-- Lifting into an object: applying a list of Differences whose paths
are all prefixed by the field key `k` equals applying the stripped list
to the field value and writing it back. -/
theorem lift_obj : ∀ (ds : List Delta) (fs : Fields) (k : String) (c : Node),
    getF fs k = some c → isComposite c = true → (∀ d ∈ ds, d.path ≠ []) →
    applyUndoNode (.obj fs) (ds.map (dprep [Key.str k])) =
      .obj (setF fs k (applyUndoNode c ds)) := by
  intro ds
  induction ds with
  | nil =>
    intro fs k c hg _ _
    show Node.obj fs = .obj (setF fs k c)
    rw [setF_self fs k c hg]
  | cons d tl ih =>
    intro fs k c hg hcomp hpaths
    have hdp : d.path ≠ [] := hpaths d (List.mem_cons_self d tl)
    have step : undoStep (.obj fs) (dprep [Key.str k] d) =
        .obj (setF fs k (undoStep c d)) := by
      obtain ⟨dt, dp, dv, dov⟩ := d
      cases dp with
      | nil => cases hdp rfl
      | cons q1 qrest =>
        cases dt with
        | CREATE =>
          show lodashUnset (.obj fs) (Key.str k :: q1 :: qrest) = _
          simp only [lodashUnset, getKey, hg, setKeyNode]
          rfl
        | CHANGE =>
          show lodashSet (.obj fs) (Key.str k :: q1 :: qrest) _ = _
          simp only [lodashSet, getKey, hg, hcomp, if_true, setKeyNode]
          rfl
        | REMOVE =>
          show lodashSet (.obj fs) (Key.str k :: q1 :: qrest) _ = _
          simp only [lodashSet, getKey, hg, hcomp, if_true, setKeyNode]
          rfl
    rw [List.map_cons, applyUndoNode_cons, step, applyUndoNode_cons]
    rw [ih (setF fs k (undoStep c d)) k (undoStep c d)
      (getF_setF_self fs k (undoStep c d))
      (undoStep_composite c d hdp hcomp)
      (fun x hx => hpaths x (List.mem_cons_of_mem d hx))]
    rw [setF_setF]

/-- Lifting into an array: applying a list of Differences whose paths are
all prefixed by the index `i` equals applying the stripped list to the
element and writing it back in place. -/
theorem lift_arr : ∀ (ds : List Delta) (es : Elems) (i : Nat) (c : Node),
    eget es i = some c → isComposite c = true → (∀ d ∈ ds, d.path ≠ []) →
    applyUndoNode (.arr es) (ds.map (dprep [Key.idx i])) =
      .arr (esetIn es i (applyUndoNode c ds)) := by
  intro ds
  induction ds with
  | nil =>
    intro es i c hg _ _
    show Node.arr es = .arr (esetIn es i c)
    rw [esetIn_self es i c hg]
  | cons d tl ih =>
    intro es i c hg hcomp hpaths
    have hdp : d.path ≠ [] := hpaths d (List.mem_cons_self d tl)
    have hlt : i < elength es := eget_lt es i c hg
    have step : undoStep (.arr es) (dprep [Key.idx i] d) =
        .arr (esetIn es i (undoStep c d)) := by
      obtain ⟨dt, dp, dv, dov⟩ := d
      cases dp with
      | nil => cases hdp rfl
      | cons q1 qrest =>
        cases dt with
        | CREATE =>
          show lodashUnset (.arr es) (Key.idx i :: q1 :: qrest) = _
          simp only [lodashUnset, getKey, hg, setKeyNode, esetExtend, hlt, if_true]
          rfl
        | CHANGE =>
          show lodashSet (.arr es) (Key.idx i :: q1 :: qrest) _ = _
          simp only [lodashSet, getKey, hg, hcomp, if_true, setKeyNode, esetExtend, hlt]
          rfl
        | REMOVE =>
          show lodashSet (.arr es) (Key.idx i :: q1 :: qrest) _ = _
          simp only [lodashSet, getKey, hg, hcomp, if_true, setKeyNode, esetExtend, hlt]
          rfl
    rw [List.map_cons, applyUndoNode_cons, step, applyUndoNode_cons]
    rw [ih (esetIn es i (undoStep c d)) i (undoStep c d)
      (eget_esetIn_self es i (undoStep c d) hlt)
      (undoStep_composite c d hdp hcomp)
      (fun x hx => hpaths x (List.mem_cons_of_mem d hx))]
    rw [esetIn_esetIn]

/-! ## Round trip: processing the differ blocks -/

/-- Diffing a node against itself emits nothing. -/
theorem diffN_self (p : JPath) (a : Node) : diffN p a a = [] := by
  simp [diffN.eq_def]

/-- Same-shaped nodes are composite. -/
theorem sameShape_composite (x y : Node) (h : sameShape x y = true) :
    isComposite x = true ∧ isComposite y = true := by
  cases x <;> cases y <;> simp [sameShape] at h <;> exact ⟨rfl, rfl⟩

/-- Presence is a `some` lookup. -/
theorem getF_none_hasF (fs : Fields) (k : String) (h : getF fs k = none) :
    hasF fs k = false := by
  rw [hasF, h]
  rfl

/-- Absence at a cons splits into head and tail facts. -/
theorem hasF_cons_false (k1 : String) (v : Node) (tl : Fields) (k2 : String)
    (h : hasF (.cons k1 v tl) k2 = false) : k1 ≠ k2 ∧ hasF tl k2 = false := by
  have hg := hasF_eq_false _ _ h
  by_cases h1 : k1 = k2
  · rw [getF, if_pos h1] at hg
    cases hg
  · rw [getF, if_neg h1] at hg
    exact ⟨h1, getF_none_hasF tl k2 hg⟩

/-- A key present after a set was the set key or was already present. -/
theorem hasF_setF_imp (fs : Fields) (k k2 : String) (v : Node)
    (h : hasF (setF fs k v) k2 = true) : k = k2 ∨ hasF fs k2 = true := by
  by_cases h1 : k = k2
  · exact Or.inl h1
  · right
    rw [hasF, ← getF_setF_ne fs k k2 v (Ne.symm h1)]
    exact h

/-- A key present after a removal was present before. -/
theorem hasF_removeF_imp (fs : Fields) (k k2 : String)
    (h : hasF (removeF fs k) k2 = true) : hasF fs k2 = true := by
  induction fs using Fields.spineIndF with
  | hnil => simpa [removeF] using h
  | hcons k1 v1 tl ih =>
    by_cases h1 : k1 = k
    · rw [removeF, if_pos h1] at h
      rw [hasF, getF]
      by_cases h2 : k1 = k2
      · simp [h2]
      · rw [if_neg h2]
        exact h
    · rw [removeF, if_neg h1] at h
      rw [hasF, getF] at h ⊢
      by_cases h2 : k1 = k2
      · simp [h2]
      · rw [if_neg h2] at h ⊢
        exact ih h
  
/-- A member of the tail has a key distinct from an absent head key. -/
theorem memF_ne_of_hasF_false (tl : Fields) (k1 k : String) (v : Node)
    (hh : hasF tl k1 = false) (hm : memF k v tl) : k ≠ k1 := by
  intro e
  subst e
  rw [memF_hasF tl k v hm] at hh
  cases hh

/-- Values looked up in a well-formed field list are well-formed. -/
theorem getF_wfF (fs : Fields) (k : String) (v : Node) (hw : wfF fs = true)
    (h : getF fs k = some v) : wfN v = true :=
  memF_wfF fs k v hw (getF_memF fs k v h)

/-- The CREATE tail of the array rule always violates `noArrCreate` when
nonempty. -/
theorem noArrCreate_diffECreates_cons (i : Nat) (y : Node) (ys : Elems) :
    noArrCreate (diffECreates [] i (.cons y ys)) = false := by
  simp [diffECreates, noArrCreate]

/-- Processing the REMOVE/recurse/CHANGE part of the object rule: the
inverse application restores every before-field up to structural
equivalence and leaves all other keys untouched. -/
theorem rem_proc (f : Nat)
    (IH : ∀ (x y : Node), nsize x + nsize y ≤ f → sameShape x y = true →
      wfN x = true → wfN y = true → noArrCreate (diffN [] x y) = true →
      equivN (applyUndoNode y (diffN [] x y)) x = true)
    (fb : Fields) (hwb : wfF fb = true) :
    ∀ (fa gs : Fields),
      wfF fa = true → keysNodupF fa = true →
      (∀ k v, memF k v fa → getF gs k = getF fb k) →
      keysNodupF gs = true →
      noArrCreate (diffFRem [] fb fa) = true →
      fsize fa + fsize fb ≤ f →
      ∃ rs, applyUndoNode (.obj gs) (diffFRem [] fb fa) = .obj rs
        ∧ (∀ k2, hasF fa k2 = false → getF rs k2 = getF gs k2)
        ∧ (∀ k2 v, memF k2 v fa → ∃ w, getF rs k2 = some w ∧ equivN w v = true)
        ∧ keysNodupF rs = true
        ∧ (∀ k2, hasF rs k2 = true → hasF gs k2 = true ∨ hasF fa k2 = true) := by
  intro fa
  induction fa using Fields.spineIndF with
  | hnil =>
    intro gs _ _ _ hndgs _ _
    exact ⟨gs, rfl, fun k2 _ => rfl, fun k2 v hm => hm.elim, hndgs,
      fun k2 h => Or.inl h⟩
  | hcons k1 va tl ihtl =>
    intro gs hwfa hnda h1 hndgs hnoarr hsz
    have hwva : wfN va = true := by
      simp only [wfF, Bool.and_eq_true] at hwfa
      exact hwfa.1
    have hwtl : wfF tl = true := by
      simp only [wfF, Bool.and_eq_true] at hwfa
      exact hwfa.2
    have hhd : hasF tl k1 = false := by
      simp only [keysNodupF, Bool.and_eq_true, Bool.not_eq_eq_eq_not,
        Bool.not_true] at hnda
      exact hnda.1
    have hndtl : keysNodupF tl = true := by
      simp only [keysNodupF, Bool.and_eq_true] at hnda
      exact hnda.2
    have hsztl : fsize tl + fsize fb ≤ f := by
      have := nsize_pos va
      simp only [fsize] at hsz
      omega
    have hfacons : ∀ k2, hasF (Fields.cons k1 va tl) k2 = false →
        (k1 ≠ k2 ∧ hasF tl k2 = false) := fun k2 h => hasF_cons_false k1 va tl k2 h
    cases hg : getF fb k1 with
    | none =>
      have hunf : diffFRem [] fb (Fields.cons k1 va tl) =
          [⟨DKind.REMOVE, [Key.str k1], none, some va⟩] ++ diffFRem [] fb tl := by
        simp [diffFRem, hg]
      have hnoartl : noArrCreate (diffFRem [] fb tl) = true := by
        rw [hunf, noArrCreate_append, Bool.and_eq_true] at hnoarr
        exact hnoarr.2
      have hstep : applyUndoNode (.obj gs) [⟨DKind.REMOVE, [Key.str k1], none, some va⟩] =
          .obj (setF gs k1 va) := rfl
      have h1tl : ∀ k v, memF k v tl → getF (setF gs k1 va) k = getF fb k := by
        intro k v hm
        rw [getF_setF_ne gs k1 k va (memF_ne_of_hasF_false tl k1 k v hhd hm)]
        exact h1 k v (Or.inr hm)
      obtain ⟨rs, e, fr, ent, nd, sub⟩ :=
        ihtl (setF gs k1 va) hwtl hndtl h1tl (setF_keysNodupF gs k1 va hndgs)
          hnoartl hsztl
      refine ⟨rs, ?_, ?_, ?_, nd, ?_⟩
      · rw [hunf, applyUndoNode_append, hstep, e]
      · intro k2 h
        obtain ⟨hne, htl⟩ := hfacons k2 h
        rw [fr k2 htl, getF_setF_ne gs k1 k2 va (Ne.symm hne)]
      · intro k2 v hm
        rcases hm with ⟨rfl, rfl⟩ | hm
        · refine ⟨v, ?_, equivN_refl v hwva⟩
          rw [fr k2 hhd, getF_setF_self]
        · exact ent k2 v hm
      · intro k2 h
        rcases sub k2 h with h | h
        · rcases hasF_setF_imp gs k1 k2 va h with rfl | h
          · right
            simp [hasF, getF]
          · exact Or.inl h
        · right
          rw [hasF, getF]
          by_cases h2 : k1 = k2
          · simp [h2]
          · rw [if_neg h2]
            exact h
    | some vb =>
      have hvb : getF gs k1 = some vb := by
        rw [h1 k1 va (Or.inl ⟨rfl, rfl⟩)]
        exact hg
      have hwvb : wfN vb = true := getF_wfF fb k1 vb hwb hg
      have hunf : diffFRem [] fb (Fields.cons k1 va tl) =
          diffN [Key.str k1] va vb ++ diffFRem [] fb tl := by
        simp [diffFRem, hg]
      have hnoartl : noArrCreate (diffFRem [] fb tl) = true := by
        rw [hunf, noArrCreate_append, Bool.and_eq_true] at hnoarr
        exact hnoarr.2
      have hnoarblk : noArrCreate (diffN [Key.str k1] va vb) = true := by
        rw [hunf, noArrCreate_append, Bool.and_eq_true] at hnoarr
        exact hnoarr.1
      have hcontinue : ∀ (w : Node), equivN w va = true →
          applyUndoNode (.obj gs) (diffN [Key.str k1] va vb) = .obj (setF gs k1 w) →
          ∃ rs, applyUndoNode (.obj gs) (diffFRem [] fb (Fields.cons k1 va tl)) = .obj rs
            ∧ (∀ k2, hasF (Fields.cons k1 va tl) k2 = false → getF rs k2 = getF gs k2)
            ∧ (∀ k2 v, memF k2 v (Fields.cons k1 va tl) →
                ∃ w2, getF rs k2 = some w2 ∧ equivN w2 v = true)
            ∧ keysNodupF rs = true
            ∧ (∀ k2, hasF rs k2 = true →
                hasF gs k2 = true ∨ hasF (Fields.cons k1 va tl) k2 = true) := by
        intro w hw hblk
        have h1tl : ∀ k v, memF k v tl → getF (setF gs k1 w) k = getF fb k := by
          intro k v hm
          rw [getF_setF_ne gs k1 k w (memF_ne_of_hasF_false tl k1 k v hhd hm)]
          exact h1 k v (Or.inr hm)
        obtain ⟨rs, e, fr, ent, nd, sub⟩ :=
          ihtl (setF gs k1 w) hwtl hndtl h1tl (setF_keysNodupF gs k1 w hndgs)
            hnoartl hsztl
        refine ⟨rs, ?_, ?_, ?_, nd, ?_⟩
        · rw [hunf, applyUndoNode_append, hblk, e]
        · intro k2 h
          obtain ⟨hne, htl⟩ := hfacons k2 h
          rw [fr k2 htl, getF_setF_ne gs k1 k2 w (Ne.symm hne)]
        · intro k2 v hm
          rcases hm with ⟨rfl, rfl⟩ | hm
          · refine ⟨w, ?_, hw⟩
            rw [fr k2 hhd, getF_setF_self]
          · exact ent k2 v hm
        · intro k2 h
          rcases sub k2 h with h | h
          · rcases hasF_setF_imp gs k1 k2 w h with rfl | h
            · right
              simp [hasF, getF]
            · exact Or.inl h
          · right
            rw [hasF, getF]
            by_cases h2 : k1 = k2
            · simp [h2]
            · rw [if_neg h2]
              exact h
      by_cases hxy : va = vb
      · refine hcontinue vb (hxy ▸ equivN_refl va hwva) ?_
        rw [hxy, diffN_self]
        show Node.obj gs = .obj (setF gs k1 vb)
        rw [setF_self gs k1 vb hvb]
      · by_cases hshape : sameShape va vb = true
        · have hsz2 : nsize va + nsize vb ≤ f := by
            have hva := memF_size (Fields.cons k1 va tl) k1 va (Or.inl ⟨rfl, rfl⟩)
            have hvb2 := getF_size fb k1 vb hg
            simp only [fsize] at hsz hva
            omega
          have hnoarbase : noArrCreate (diffN [] va vb) = true := by
            rw [diffN_prepend va vb [Key.str k1],
              noArrCreate_map_dprep [Key.str k1] (diffN [] va vb)
                (diffN_path_ne va vb hshape)] at hnoarblk
            exact hnoarblk
          have hequiv := IH va vb hsz2 hshape hwva hwvb hnoarbase
          refine hcontinue (applyUndoNode vb (diffN [] va vb)) hequiv ?_
          rw [diffN_prepend va vb [Key.str k1]]
          exact lift_obj (diffN [] va vb) gs k1 vb hvb
            (sameShape_composite va vb hshape).2 (diffN_path_ne va vb hshape)
        · have hunfblk : diffN [Key.str k1] va vb =
              [⟨DKind.CHANGE, [Key.str k1], some vb, some va⟩] := by
            rw [diffN.eq_def, if_neg hxy]
            cases va <;> cases vb <;> first
              | rfl
              | (simp [sameShape] at hshape)
          refine hcontinue va (equivN_refl va hwva) ?_
          rw [hunfblk]
          rfl

/-- Processing the CREATE part of the object rule: the inverse application
deletes every key added by the mutation and leaves all other keys
untouched. -/
theorem add_proc (fa : Fields) :
    ∀ (fbl rs : Fields),
      keysNodupF fbl = true → keysNodupF rs = true →
      ∃ rs2, applyUndoNode (.obj rs) (diffFAdd [] fa fbl) = .obj rs2
        ∧ (∀ k2, (hasF fbl k2 = false ∨ hasF fa k2 = true) →
            getF rs2 k2 = getF rs k2)
        ∧ (∀ k2, hasF fbl k2 = true → hasF fa k2 = false → getF rs2 k2 = none)
        ∧ keysNodupF rs2 = true
        ∧ (∀ k2, hasF rs2 k2 = true → hasF rs k2 = true) := by
  intro fbl
  induction fbl using Fields.spineIndF with
  | hnil =>
    intro rs _ hndrs
    refine ⟨rs, rfl, fun k2 _ => rfl, ?_, hndrs, fun k2 h => h⟩
    intro k2 h _
    simp [hasF, getF] at h
  | hcons k1 vb tl ihtl =>
    intro rs hndb hndrs
    have hhd : hasF tl k1 = false := by
      simp only [keysNodupF, Bool.and_eq_true, Bool.not_eq_eq_eq_not,
        Bool.not_true] at hndb
      exact hndb.1
    have hndtl : keysNodupF tl = true := by
      simp only [keysNodupF, Bool.and_eq_true] at hndb
      exact hndb.2
    cases hha : hasF fa k1 with
    | true =>
      have hunf : diffFAdd [] fa (Fields.cons k1 vb tl) = diffFAdd [] fa tl := by
        simp [diffFAdd, hha]
      obtain ⟨rs2, e, fr, del, nd, sub⟩ := ihtl rs hndtl hndrs
      refine ⟨rs2, by rw [hunf, e], ?_, ?_, nd, sub⟩
      · intro k2 h
        rcases h with h | h
        · exact fr k2 (Or.inl (hasF_cons_false k1 vb tl k2 h).2)
        · exact fr k2 (Or.inr h)
      · intro k2 h hfa
        rw [hasF, getF] at h
        by_cases h2 : k1 = k2
        · rw [← h2] at hfa
          rw [hha] at hfa
          cases hfa
        · rw [if_neg h2] at h
          exact del k2 h hfa
    | false =>
      have hunf : diffFAdd [] fa (Fields.cons k1 vb tl) =
          [⟨DKind.CREATE, [Key.str k1], some vb, none⟩] ++ diffFAdd [] fa tl := by
        simp [diffFAdd, hha]
      have hstep : applyUndoNode (.obj rs) [⟨DKind.CREATE, [Key.str k1], some vb, none⟩] =
          .obj (removeF rs k1) := rfl
      obtain ⟨rs2, e, fr, del, nd, sub⟩ :=
        ihtl (removeF rs k1) hndtl (removeF_keysNodupF rs k1 hndrs)
      refine ⟨rs2, ?_, ?_, ?_, nd, ?_⟩
      · rw [hunf, applyUndoNode_append, hstep, e]
      · intro k2 h
        have hne : k1 ≠ k2 := by
          rcases h with h | h
          · exact (hasF_cons_false k1 vb tl k2 h).1
          · intro e2
            rw [← e2, hha] at h
            cases h
        have h2 : getF rs2 k2 = getF (removeF rs k1) k2 := by
          rcases h with h | h
          · exact fr k2 (Or.inl (hasF_cons_false k1 vb tl k2 h).2)
          · exact fr k2 (Or.inr h)
        rw [h2, removeF_getF_ne rs k1 k2 (Ne.symm hne)]
      · intro k2 h hfa
        rw [hasF, getF] at h
        by_cases h2 : k1 = k2
        · subst h2
          rw [fr k1 (Or.inl hhd), removeF_getF_self rs k1 hndrs]
        · rw [if_neg h2] at h
          exact del k2 h hfa
      · intro k2 h
        exact hasF_removeF_imp rs k1 k2 (sub k2 h)

/-- Dropping the head of a Difference list preserves `noArrCreate`. -/
theorem noArrCreate_tail (d : Delta) (tl : List Delta)
    (h : noArrCreate (d :: tl) = true) : noArrCreate tl = true := by
  simp only [noArrCreate, List.all_cons, Bool.and_eq_true] at h
  exact h.2

/-- Processing the array rule: the inverse application, run after any
already-processed prefix of slots, restores the before-elements up to
structural equivalence. -/
theorem elems_proc (f : Nat)
    (IH : ∀ (x y : Node), nsize x + nsize y ≤ f → sameShape x y = true →
      wfN x = true → wfN y = true → noArrCreate (diffN [] x y) = true →
      equivN (applyUndoNode y (diffN [] x y)) x = true) :
    ∀ (ea eb pre : Elems) (i : Nat),
      elength pre = i →
      wfE ea = true → wfE eb = true →
      noArrCreate (diffE [] i ea eb) = true →
      esize ea + esize eb ≤ f →
      ∃ outE, applyUndoNode (.arr (eappend pre eb)) (diffE [] i ea eb) =
          .arr (eappend pre outE)
        ∧ elength outE = elength ea
        ∧ equivE outE ea = true := by
  intro ea
  induction ea using Elems.spineIndE with
  | hnil =>
    intro eb pre i _ _ _ hnoarr _
    cases eb with
    | nil => exact ⟨.nil, rfl, rfl, rfl⟩
    | cons y ys =>
      rw [show diffE [] i Elems.nil (.cons y ys) = diffECreates [] i (.cons y ys)
          from rfl, noArrCreate_diffECreates_cons] at hnoarr
      cases hnoarr
  | hcons x xs ih =>
    intro eb pre i hpre hwa hwb hnoarr hsz
    have hwx : wfN x = true := by
      simp only [wfE, Bool.and_eq_true] at hwa
      exact hwa.1
    have hwxs : wfE xs = true := by
      simp only [wfE, Bool.and_eq_true] at hwa
      exact hwa.2
    cases eb with
    | nil =>
      have hunf : diffE [] i (Elems.cons x xs) .nil =
          ⟨DKind.REMOVE, [Key.idx i], none, some x⟩ :: diffE [] (i + 1) xs .nil := by
        simp [diffE]
      have htl : noArrCreate (diffE [] (i + 1) xs .nil) = true := by
        rw [hunf] at hnoarr
        exact noArrCreate_tail _ _ hnoarr
      have hsztl : esize xs + esize Elems.nil ≤ f := by
        have := nsize_pos x
        simp only [esize] at hsz ⊢
        omega
      have hstep : undoStep (.arr (eappend pre .nil)) ⟨DKind.REMOVE, [Key.idx i], none, some x⟩ =
          .arr (eappend pre (.cons x .nil)) := by
        show lodashSet (.arr (eappend pre .nil)) [Key.idx i] x = _
        rw [eappend_nil, show lodashSet (.arr pre) [Key.idx i] x =
          setKeyNode (.arr pre) (.idx i) x from rfl, ← hpre, setKeyNode_arr_append]
      have hpre2 : elength (eappend pre (.cons x .nil)) = i + 1 := by
        rw [elength_eappend, hpre]
        rfl
      obtain ⟨out, e, hlen, heq⟩ :=
        ih .nil (eappend pre (.cons x .nil)) (i + 1) hpre2 hwxs rfl htl hsztl
      refine ⟨.cons x out, ?_, ?_, ?_⟩
      · rw [hunf, applyUndoNode_cons, hstep, ← eappend_nil (eappend pre (.cons x .nil)), e,
          eappend_assoc]
        rfl
      · simp [elength, hlen]
      · simp only [equivE, Bool.and_eq_true]
        exact ⟨equivN_refl x hwx, heq⟩
    | cons y ys =>
      have hwy : wfN y = true := by
        simp only [wfE, Bool.and_eq_true] at hwb
        exact hwb.1
      have hwys : wfE ys = true := by
        simp only [wfE, Bool.and_eq_true] at hwb
        exact hwb.2
      have hunf : diffE [] i (Elems.cons x xs) (.cons y ys) =
          diffN [Key.idx i] x y ++ diffE [] (i + 1) xs ys := by
        simp [diffE]
      have hblk : noArrCreate (diffN [Key.idx i] x y) = true := by
        rw [hunf, noArrCreate_append, Bool.and_eq_true] at hnoarr
        exact hnoarr.1
      have htl : noArrCreate (diffE [] (i + 1) xs ys) = true := by
        rw [hunf, noArrCreate_append, Bool.and_eq_true] at hnoarr
        exact hnoarr.2
      have hsztl : esize xs + esize ys ≤ f := by
        have := nsize_pos x
        have := nsize_pos y
        simp only [esize] at hsz
        omega
      have hcontinue : ∀ (w : Node), equivN w x = true →
          applyUndoNode (.arr (eappend pre (.cons y ys))) (diffN [Key.idx i] x y) =
            .arr (eappend pre (.cons w ys)) →
          ∃ outE, applyUndoNode (.arr (eappend pre (.cons y ys)))
              (diffE [] i (Elems.cons x xs) (.cons y ys)) = .arr (eappend pre outE)
            ∧ elength outE = elength (Elems.cons x xs)
            ∧ equivE outE (Elems.cons x xs) = true := by
        intro w hw hblkeq
        have hpre2 : elength (eappend pre (.cons w .nil)) = i + 1 := by
          rw [elength_eappend, hpre]
          rfl
        obtain ⟨out, e, hlen, heq⟩ :=
          ih ys (eappend pre (.cons w .nil)) (i + 1) hpre2 hwxs hwys htl hsztl
        have hsplit : eappend (eappend pre (.cons w .nil)) ys =
            eappend pre (.cons w ys) := by
          rw [eappend_assoc]
          rfl
        refine ⟨.cons w out, ?_, ?_, ?_⟩
        · rw [hunf, applyUndoNode_append, hblkeq, ← hsplit, e, eappend_assoc]
          rfl
        · simp [elength, hlen]
        · simp only [equivE, Bool.and_eq_true]
          exact ⟨hw, heq⟩
      by_cases hxy : x = y
      · refine hcontinue y (hxy ▸ equivN_refl x hwx) ?_
        rw [hxy, diffN_self]
        rfl
      · by_cases hshape : sameShape x y = true
        · have hsz2 : nsize x + nsize y ≤ f := by
            simp only [esize] at hsz
            omega
          have hnoarbase : noArrCreate (diffN [] x y) = true := by
            rw [diffN_prepend x y [Key.idx i],
              noArrCreate_map_dprep [Key.idx i] (diffN [] x y)
                (diffN_path_ne x y hshape)] at hblk
            exact hblk
          have hequiv := IH x y hsz2 hshape hwx hwy hnoarbase
          refine hcontinue (applyUndoNode y (diffN [] x y)) hequiv ?_
          rw [diffN_prepend x y [Key.idx i],
            lift_arr (diffN [] x y) (eappend pre (.cons y ys)) i y
              (hpre ▸ eget_eappend_len pre y ys)
              (sameShape_composite x y hshape).2 (diffN_path_ne x y hshape),
            ← hpre, esetIn_eappend_len]
        · have hunfblk : diffN [Key.idx i] x y =
              [⟨DKind.CHANGE, [Key.idx i], some y, some x⟩] := by
            rw [diffN.eq_def, if_neg hxy]
            cases x <;> cases y <;> first
              | rfl
              | (simp [sameShape] at hshape)
          refine hcontinue x (equivN_refl x hwx) ?_
          rw [hunfblk]
          show lodashSet (.arr (eappend pre (.cons y ys))) [Key.idx i] x = _
          rw [show lodashSet (.arr (eappend pre (.cons y ys))) [Key.idx i] x =
            setKeyNode (.arr (eappend pre (.cons y ys))) (.idx i) x from rfl,
            setKeyNode_arr_in _ i x (by rw [elength_eappend, hpre, elength]; omega),
            ← hpre, esetIn_eappend_len]

/-- A member of a duplicate-free field list is the lookup result. -/
theorem memF_getF (fs : Fields) (k : String) (v : Node)
    (hnd : keysNodupF fs = true) (h : memF k v fs) : getF fs k = some v := by
  induction fs using Fields.spineIndF with
  | hnil => cases h
  | hcons k1 v1 tl ih =>
    have hhd : hasF tl k1 = false := by
      simp only [keysNodupF, Bool.and_eq_true, Bool.not_eq_eq_eq_not,
        Bool.not_true] at hnd
      exact hnd.1
    have hndtl : keysNodupF tl = true := by
      simp only [keysNodupF, Bool.and_eq_true] at hnd
      exact hnd.2
    rcases h with ⟨rfl, rfl⟩ | h
    · rw [getF, if_pos rfl]
    · rw [getF, if_neg (Ne.symm (memF_ne_of_hasF_false tl k1 k v hhd h))]
      exact ih hndtl h

/-- Building block for structural equivalence: a pointwise witness for
every field. -/
theorem equivF_intro (fb : Fields) : ∀ (fa : Fields),
    (∀ k v, memF k v fa → ∃ w, getF fb k = some w ∧ equivN v w = true) →
    equivF fb fa = true := by
  intro fa
  induction fa using Fields.spineIndF with
  | hnil => intro _; rfl
  | hcons k v tl ih =>
    intro h
    obtain ⟨w, hw, he⟩ := h k v (Or.inl ⟨rfl, rfl⟩)
    simp only [equivF, Bool.and_eq_true]
    refine ⟨?_, ih fun k2 v2 hm => h k2 v2 (Or.inr hm)⟩
    rw [hw]
    exact he

/-- Building block for structural equivalence: pointwise key coverage. -/
theorem keysSubF_intro (fa : Fields) : ∀ (fb : Fields),
    (∀ k v, memF k v fb → hasF fa k = true) → keysSubF fa fb = true := by
  intro fb
  induction fb using Fields.spineIndF with
  | hnil => intro _; rfl
  | hcons k v tl ih =>
    intro h
    simp only [keysSubF, Bool.and_eq_true]
    exact ⟨h k v (Or.inl ⟨rfl, rfl⟩), ih fun k2 v2 hm => h k2 v2 (Or.inr hm)⟩

/-- The round trip of the spec: on well-formed same-shaped snapshots
whose diff creates no array slots, the store's undo loop applied to the
after-state inverts the diff up to structural equivalence. -/
theorem rt_main : ∀ (f : Nat) (a b : Node), nsize a + nsize b ≤ f →
    sameShape a b = true → wfN a = true → wfN b = true →
    noArrCreate (diffN [] a b) = true →
    equivN (applyUndoNode b (diffN [] a b)) a = true := by
  intro f
  induction f with
  | zero =>
    intro a b hsz _ _ _ _
    have := nsize_pos a
    have := nsize_pos b
    omega
  | succ f ihf =>
    intro a b hsz hshape hwa hwb hnoarr
    by_cases hab : a = b
    · subst hab
      rw [diffN_self]
      exact equivN_refl a hwa
    · cases a with
      | arr ea =>
        cases b with
        | arr eb =>
          have hunf : diffN [] (.arr ea) (.arr eb) = diffE [] 0 ea eb := by
            rw [diffN.eq_def, if_neg hab]
          have hwea : wfE ea = true := hwa
          have hweb : wfE eb = true := hwb
          have hnoarr2 : noArrCreate (diffE [] 0 ea eb) = true := by
            rw [hunf] at hnoarr
            exact hnoarr
          have hsz2 : esize ea + esize eb ≤ f := by
            simp only [nsize] at hsz
            omega
          obtain ⟨out, e, _, heq⟩ :=
            elems_proc f ihf ea eb .nil 0 rfl hwea hweb hnoarr2 hsz2
          rw [hunf]
          have e2 : applyUndoNode (.arr eb) (diffE [] 0 ea eb) = .arr out := e
          rw [e2]
          exact heq
        | obj fb => simp [sameShape] at hshape
        | null => simp [sameShape] at hshape
        | undef => simp [sameShape] at hshape
        | sym => simp [sameShape] at hshape
        | bool b2 => simp [sameShape] at hshape
        | num n2 => simp [sameShape] at hshape
        | str s2 => simp [sameShape] at hshape
      | obj fa =>
        cases b with
        | obj fb =>
          have hunf : diffN [] (.obj fa) (.obj fb) =
              diffFRem [] fb fa ++ diffFAdd [] fa fb := by
            rw [diffN.eq_def, if_neg hab]
          have hnda : keysNodupF fa = true := by
            simp only [wfN, Bool.and_eq_true] at hwa
            exact hwa.1
          have hwfa : wfF fa = true := by
            simp only [wfN, Bool.and_eq_true] at hwa
            exact hwa.2
          have hndb : keysNodupF fb = true := by
            simp only [wfN, Bool.and_eq_true] at hwb
            exact hwb.1
          have hwfb : wfF fb = true := by
            simp only [wfN, Bool.and_eq_true] at hwb
            exact hwb.2
          have hnoarrRem : noArrCreate (diffFRem [] fb fa) = true := by
            rw [hunf, noArrCreate_append, Bool.and_eq_true] at hnoarr
            exact hnoarr.1
          have hszRem : fsize fa + fsize fb ≤ f := by
            simp only [nsize] at hsz
            omega
          obtain ⟨rs, erem, fr, ent, nd, sub⟩ :=
            rem_proc f ihf fb hwfb fa fb hwfa hnda (fun _ _ _ => rfl) hndb
              hnoarrRem hszRem
          obtain ⟨rs2, eadd, fr2, del2, nd2, sub2⟩ := add_proc fa fb rs hndb nd
          rw [hunf, applyUndoNode_append, erem, eadd]
          show (equivF fa rs2 && keysSubF rs2 fa) = true
          simp only [Bool.and_eq_true]
          constructor
          · refine equivF_intro fa rs2 ?_
            intro k w hm
            have hk2 : hasF rs2 k = true := memF_hasF rs2 k w hm
            by_cases hfa : hasF fa k = true
            · obtain ⟨v, hv⟩ := hasF_getF fa k hfa
              obtain ⟨w2, hw2, he2⟩ := ent k v (getF_memF fa k v hv)
              have hg2 : getF rs2 k = some w2 := by
                rw [fr2 k (Or.inr hfa)]
                exact hw2
              have hg3 : getF rs2 k = some w := memF_getF rs2 k w nd2 hm
              rw [hg2] at hg3
              cases hg3
              exact ⟨v, hv, he2⟩
            · exfalso
              have hfab : hasF fa k = false := Bool.eq_false_iff.mpr hfa
              have hfb : hasF fb k = true := by
                rcases sub k (sub2 k hk2) with h | h
                · exact h
                · rw [h] at hfab
                  cases hfab
              have hnone : getF rs2 k = none := del2 k hfb hfab
              rw [hasF, hnone] at hk2
              cases hk2
          · refine keysSubF_intro rs2 fa ?_
            intro k v hm
            obtain ⟨w2, hw2, _⟩ := ent k v hm
            have hg2 : getF rs2 k = some w2 := by
              rw [fr2 k (Or.inr (memF_hasF fa k v hm))]
              exact hw2
            rw [hasF, hg2]
            rfl
        | arr eb => simp [sameShape] at hshape
        | null => simp [sameShape] at hshape
        | undef => simp [sameShape] at hshape
        | sym => simp [sameShape] at hshape
        | bool b2 => simp [sameShape] at hshape
        | num n2 => simp [sameShape] at hshape
        | str s2 => simp [sameShape] at hshape
      | null => simp [sameShape] at hshape
      | undef => simp [sameShape] at hshape
      | sym => simp [sameShape] at hshape
      | bool b1 => simp [sameShape] at hshape
      | num n1 => simp [sameShape] at hshape
      | str s1 => simp [sameShape] at hshape

/-- The round trip at the root, stated over `diff`. -/
theorem round_trip (a b : Node) (hshape : sameShape a b = true)
    (hwa : wfN a = true) (hwb : wfN b = true)
    (hnoarr : noArrCreate (diff a b) = true) :
    equivN (applyUndoNode b (diff a b)) a = true :=
  rt_main (nsize a + nsize b) a b le_rfl hshape hwa hwb hnoarr

/-- A key present in the partial takes the partial's value in the shallow
merge `{...fs, ...p}`. -/
theorem getF_mergeF_some (fs : Fields) : ∀ (p : Fields) (k : String) (v : Node),
    getF p k = some v → getF (mergeF fs p) k = some v := by
  induction fs using Fields.spineIndF with
  | hnil => intro p k v h; simpa [mergeF] using h
  | hcons k1 v1 tl ih =>
    intro p k v h
    cases hg : getF p k1 with
    | some w =>
      simp only [mergeF, hg]
      show (if k1 = k then some w else getF (mergeF tl (removeF p k1)) k) = some v
      by_cases h1 : k1 = k
      · rw [if_pos h1]
        rw [h1] at hg
        rw [hg] at h
        exact h
      · rw [if_neg h1]
        refine ih (removeF p k1) k v ?_
        rw [removeF_getF_ne p k1 k (fun e => h1 e.symm)]
        exact h
    | none =>
      simp only [mergeF, hg]
      show (if k1 = k then some v1 else getF (mergeF tl p) k) = some v
      have h1 : k1 ≠ k := by
        intro e
        rw [e] at hg
        rw [hg] at h
        cases h
      rw [if_neg h1]
      exact ih p k v h

/-- A key absent from the partial keeps the base object's value in the
shallow merge `{...fs, ...p}`. -/
theorem getF_mergeF_none (fs : Fields) : ∀ (p : Fields) (k : String),
    getF p k = none → getF (mergeF fs p) k = getF fs k := by
  induction fs using Fields.spineIndF with
  | hnil => intro p k h; simpa [mergeF] using h
  | hcons k1 v1 tl ih =>
    intro p k h
    cases hg : getF p k1 with
    | some w =>
      simp only [mergeF, hg]
      show (if k1 = k then some w else getF (mergeF tl (removeF p k1)) k) =
        if k1 = k then some v1 else getF tl k
      have h1 : k1 ≠ k := by
        intro e
        rw [e] at hg
        rw [hg] at h
        cases h
      rw [if_neg h1, if_neg h1]
      rw [ih (removeF p k1) k (by rw [removeF_getF_ne p k1 k (fun e => h1 e.symm)]; exact h)]
    | none =>
      simp only [mergeF, hg]
      show (if k1 = k then some v1 else getF (mergeF tl p) k) =
        if k1 = k then some v1 else getF tl k
      by_cases h1 : k1 = k
      · rw [if_pos h1, if_pos h1]
      · rw [if_neg h1, if_neg h1, ih p k h]

/-- Induction on the tagged field-list spine. -/
theorem TFields.spineIndT {P : TFields → Prop} (hnil : P .nil)
    (hcons : ∀ k v tl, P tl → P (.cons k v tl)) : ∀ fs, P fs
  | .nil => hnil
  | .cons k v tl => hcons k v tl (TFields.spineIndT hnil hcons tl)
termination_by structural fs => fs

/-- Removing one tagged key leaves lookups of other keys unchanged. -/
theorem removeFT_getFT_ne (fs : TFields) (key k : String) (h : k ≠ key) :
    getFT (removeFT fs key) k = getFT fs k := by
  induction fs using TFields.spineIndT with
  | hnil => rfl
  | hcons k1 v1 tl ih =>
    show getFT (if k1 = key then tl else .cons k1 v1 (removeFT tl key)) k = _
    by_cases h1 : k1 = key
    · rw [if_pos h1]
      show getFT tl k = if k1 = k then some v1 else getFT tl k
      rw [if_neg (fun e => h (h1 ▸ e.symm))]
    · rw [if_neg h1]
      show (if k1 = k then some v1 else getFT (removeFT tl key) k) =
        if k1 = k then some v1 else getFT tl k
      by_cases h2 : k1 = k
      · rw [if_pos h2, if_pos h2]
      · rw [if_neg h2, if_neg h2, ih]

/-- A key of the partial takes the partial's value reference in the
tagged spread `{...tfs, ...tp}`: the looked-up result is the very same
tagged term that `tp` holds. -/
theorem getFT_mergeFT_some (tfs : TFields) : ∀ (tp : TFields) (k : String) (w : TNode),
    getFT tp k = some w → getFT (mergeFT tfs tp) k = some w := by
  induction tfs using TFields.spineIndT with
  | hnil => intro tp k w h; simpa [mergeFT] using h
  | hcons k1 v1 tl ih =>
    intro tp k w h
    cases hg : getFT tp k1 with
    | some u =>
      simp only [mergeFT, hg]
      show (if k1 = k then some u else getFT (mergeFT tl (removeFT tp k1)) k) = some w
      by_cases h1 : k1 = k
      · rw [if_pos h1]
        rw [h1] at hg
        rw [hg] at h
        exact h
      · rw [if_neg h1]
        refine ih (removeFT tp k1) k w ?_
        rw [removeFT_getFT_ne tp k1 k (fun e => h1 e.symm)]
        exact h
    | none =>
      simp only [mergeFT, hg]
      show (if k1 = k then some v1 else getFT (mergeFT tl tp) k) = some w
      have h1 : k1 ≠ k := by
        intro e
        rw [e] at hg
        rw [hg] at h
        cases h
      rw [if_neg h1]
      exact ih tp k w h

/-- A key absent from the partial keeps the base object's value
reference in the tagged spread `{...tfs, ...tp}`: the looked-up result
is the very same tagged term that the base holds. -/
theorem getFT_mergeFT_none (tfs : TFields) : ∀ (tp : TFields) (k : String),
    getFT tp k = none → getFT (mergeFT tfs tp) k = getFT tfs k := by
  induction tfs using TFields.spineIndT with
  | hnil => intro tp k h; simpa [mergeFT] using h
  | hcons k1 v1 tl ih =>
    intro tp k h
    cases hg : getFT tp k1 with
    | some u =>
      simp only [mergeFT, hg]
      show (if k1 = k then some u else getFT (mergeFT tl (removeFT tp k1)) k) =
        if k1 = k then some v1 else getFT tl k
      have h1 : k1 ≠ k := by
        intro e
        rw [e] at hg
        rw [hg] at h
        cases h
      rw [if_neg h1, if_neg h1]
      rw [ih (removeFT tp k1) k
        (by rw [removeFT_getFT_ne tp k1 k (fun e => h1 e.symm)]; exact h)]
    | none =>
      simp only [mergeFT, hg]
      show (if k1 = k then some v1 else getFT (mergeFT tl tp) k) =
        if k1 = k then some v1 else getFT tl k
      by_cases h1 : k1 = k
      · rw [if_pos h1, if_pos h1]
      · rw [if_neg h1, if_neg h1, ih tp k h]

/-- Untagged lookup through an erased tagged field list. -/
theorem getF_eraseTF (tp : TFields) (k : String) :
    getF (eraseTF tp) k = Option.map eraseT (getFT tp k) := by
  induction tp using TFields.spineIndT with
  | hnil => rfl
  | hcons k1 v1 tl ih =>
    show (if k1 = k then some (eraseT v1) else getF (eraseTF tl) k) = _
    by_cases h1 : k1 = k
    · rw [if_pos h1]
      show _ = Option.map eraseT (if k1 = k then some v1 else getFT tl k)
      rw [if_pos h1]
      rfl
    · rw [if_neg h1, ih]
      show _ = Option.map eraseT (if k1 = k then some v1 else getFT tl k)
      rw [if_neg h1]

/-- Erasure commutes with tagged key removal. -/
theorem eraseTF_removeFT (tp : TFields) (k : String) :
    eraseTF (removeFT tp k) = removeF (eraseTF tp) k := by
  induction tp using TFields.spineIndT with
  | hnil => rfl
  | hcons k1 v1 tl ih =>
    show eraseTF (if k1 = k then tl else .cons k1 v1 (removeFT tl k)) =
      if k1 = k then eraseTF tl else .cons k1 (eraseT v1) (removeF (eraseTF tl) k)
    by_cases h1 : k1 = k
    · rw [if_pos h1, if_pos h1]
    · rw [if_neg h1, if_neg h1]
      show Fields.cons k1 (eraseT v1) (eraseTF (removeFT tl k)) = _
      rw [ih]

/-- The tagged spread erases to the untagged spread: forgetting identity
tags after `{...tfs, ...tp}` gives exactly the merge the store
publishes. -/
theorem eraseTF_mergeFT (tfs : TFields) : ∀ (tp : TFields),
    eraseTF (mergeFT tfs tp) = mergeF (eraseTF tfs) (eraseTF tp) := by
  induction tfs using TFields.spineIndT with
  | hnil => intro tp; rfl
  | hcons k1 v1 tl ih =>
    intro tp
    cases hg : getFT tp k1 with
    | some u =>
      have hg2 : getF (eraseTF tp) k1 = some (eraseT u) := by
        rw [getF_eraseTF, hg]
        rfl
      simp only [mergeFT, hg]
      show Fields.cons k1 (eraseT u) (eraseTF (mergeFT tl (removeFT tp k1))) =
        mergeF (.cons k1 (eraseT v1) (eraseTF tl)) (eraseTF tp)
      rw [ih (removeFT tp k1), eraseTF_removeFT]
      show _ = mergeF (.cons k1 (eraseT v1) (eraseTF tl)) (eraseTF tp)
      simp only [mergeF, hg2]
    | none =>
      have hg2 : getF (eraseTF tp) k1 = none := by
        rw [getF_eraseTF, hg]
        rfl
      simp only [mergeFT, hg]
      show Fields.cons k1 (eraseT v1) (eraseTF (mergeFT tl tp)) =
        mergeF (.cons k1 (eraseT v1) (eraseTF tl)) (eraseTF tp)
      rw [ih tp]
      simp only [mergeF, hg2]

/-- Claim C10: on every store state (paused or not), `setState(p)`
publishes the shallow merge `{...current, ...p}` — every top-level key
of `p` takes `p`'s value wholesale (nested objects replace, they do not
merge) and every other top-level key keeps the previous value.  In the
tagged reference model the spread keeps the very same value references:
a key absent from the partial looks up the identical tagged term the
base held, a key of the partial the identical tagged term the partial
held, and erasing the tags of the tagged spread gives exactly the merge
the store publishes.  When not paused, `setState` additionally commits
exactly one history entry holding the diff between the old and the new
state (truncating the redo future), advancing the pointer by one and
moving `prev` to the old state. -/
theorem C10_setState_shallow_merge (s : Store) (p : Fields) (fs : Fields)
    (hc : s.current = Node.obj fs) :
    (s.setState p).current = Node.obj (mergeF fs p) ∧
      (∀ k v, getF p k = some v → getF (mergeF fs p) k = some v) ∧
      (∀ k, getF p k = none → getF (mergeF fs p) k = getF fs k) ∧
      (∀ (tfs tp : TFields) (k : String) (w : TNode),
        getFT tp k = some w → getFT (mergeFT tfs tp) k = some w) ∧
      (∀ (tfs tp : TFields) (k : String),
        getFT tp k = none → getFT (mergeFT tfs tp) k = getFT tfs k) ∧
      (∀ (tfs tp : TFields),
        eraseTF (mergeFT tfs tp) = mergeF (eraseTF tfs) (eraseTF tp)) ∧
      (s.isPaused = false →
        (s.setState p).history =
          truncHistory s.history s.pointer ++ [diff s.current (Node.obj (mergeF fs p))] ∧
        (s.setState p).pointer = s.pointer + 1 ∧
        (s.setState p).prev = s.current) := by
  obtain ⟨prev, cur, ptr, hist, ip, dcp, ntf⟩ := s
  simp only at hc
  subst hc
  refine ⟨?_, ?_, ?_, ?_, ?_, ?_, ?_⟩
  · cases ip <;> cases dcp <;>
      simp [Store.setState, Store.willChange, Store.didChange, topFields]
  · intro k v h
    exact getF_mergeF_some fs p k v h
  · intro k h
    exact getF_mergeF_none fs p k h
  · intro tfs tp k w h
    exact getFT_mergeFT_some tfs tp k w h
  · intro tfs tp k h
    exact getFT_mergeFT_none tfs tp k h
  · intro tfs tp
    exact eraseTF_mergeFT tfs tp
  · intro hp
    simp only at hp
    subst hp
    refine ⟨?_, ?_, ?_⟩
    · simp [Store.setState, Store.willChange, Store.didChange, topFields]
    · simp [Store.setState, Store.willChange, Store.didChange]
    · simp [Store.setState, Store.willChange, Store.didChange]

/-- Claim C10, witness: `setState({age: 37})` publishes the shallow
merge on a fresh store holding `{name: "Steve", age: 36}`, and equally
on the same store paused. -/
theorem C10_setState_witness :
    ((mkStore steveN).setState (Fields.cons "age" (Node.num 37) Fields.nil)).current =
      Node.obj (mergeF (Fields.cons "name" (Node.str "Steve")
        (Fields.cons "age" (Node.num 36) Fields.nil))
        (Fields.cons "age" (Node.num 37) Fields.nil)) ∧
      (((mkStore steveN).pause).setState (Fields.cons "age" (Node.num 37) Fields.nil)).current =
        Node.obj (mergeF (Fields.cons "name" (Node.str "Steve")
          (Fields.cons "age" (Node.num 36) Fields.nil))
          (Fields.cons "age" (Node.num 37) Fields.nil)) :=
  ⟨(C10_setState_shallow_merge (mkStore steveN)
      (Fields.cons "age" (Node.num 37) Fields.nil)
      (Fields.cons "name" (Node.str "Steve") (Fields.cons "age" (Node.num 36) Fields.nil))
      rfl).1,
   (C10_setState_shallow_merge ((mkStore steveN).pause)
      (Fields.cons "age" (Node.num 37) Fields.nil)
      (Fields.cons "name" (Node.str "Steve") (Fields.cons "age" (Node.num 36) Fields.nil))
      rfl).1⟩

/-- Claim C9, amended: every public operation preserves
`-1 ≤ pointer ≤ history.length - 1`; `undo` with nothing to undo and
`redo` with nothing to redo are no-ops (not errors) leaving `pointer`,
`history` and `current` unchanged — provided the store is not paused
with a pending in-pause change (a paused-dirty store first folds that
pending change into history, which moves `pointer` and `history`, and
for `undo` also changes `current`, even when `canUndo`/`canRedo` were
false beforehand). -/
theorem C9_pointer_bounds (s : Store) (m : Node → Node) (p : Fields) (st : Node)
    (hinv : StoreInv s) :
    StoreInv (s.mutate m) ∧ StoreInv (s.setState p) ∧ StoreInv (s.replaceState st) ∧
      StoreInv s.pause ∧ StoreInv s.resume ∧ StoreInv s.undo ∧ StoreInv s.redo ∧
      (s.pointer < 0 → ¬(s.isPaused = true ∧ s.didChangeWhilePaused = true) →
        s.undo.pointer = s.pointer ∧ s.undo.history = s.history ∧
          s.undo.current = s.current) ∧
      (¬s.canRedo = true → ¬(s.isPaused = true ∧ s.didChangeWhilePaused = true) →
        s.redo.pointer = s.pointer ∧ s.redo.history = s.history ∧
          s.redo.current = s.current) := by
  obtain ⟨prev, cur, ptr, hist, ip, dcp, ntf⟩ := s
  obtain ⟨h1, h2⟩ := hinv
  simp only [StoreInv] at *
  refine ⟨?_, ?_, ?_, ?_, ?_, ?_, ?_, ?_, ?_⟩
  · cases ip <;> cases dcp <;>
      · simp [Store.mutate, Store.willChange, Store.didChange, truncHistory] at *
        omega
  · cases ip <;> cases dcp <;>
      · simp [Store.setState, Store.willChange, Store.didChange, truncHistory] at *
        omega
  · cases ip <;> cases dcp <;>
      · simp [Store.replaceState, Store.willChange, Store.didChange, truncHistory] at *
        omega
  · simpa [Store.pause] using ⟨h1, h2⟩
  · cases dcp <;>
      · simp [Store.resume, truncHistory] at *
        omega
  · cases ip
    · by_cases h : (0 : Int) ≤ ptr
      all_goals simp [Store.undo, Store.canUndo, h, truncHistory] at *
      all_goals omega
    · cases dcp
      · by_cases h : (0 : Int) ≤ ptr
        all_goals simp [Store.undo, Store.canUndo, h, truncHistory] at *
        all_goals omega
      · simp [Store.undo, Store.canUndo, truncHistory] at *
        omega
  · cases ip
    · by_cases h : ptr < (hist.length : Int) - 1
      · simp [Store.redo, Store.canRedo, Store.applyPatch,
          show ¬((hist.length : Int) ≤ ptr + 1) by omega]
        omega
      · simp [Store.redo, Store.canRedo, Store.applyPatch,
          show (hist.length : Int) ≤ ptr + 1 by omega]
        exact ⟨h1, h2⟩
    · cases dcp
      · by_cases h : ptr < (hist.length : Int) - 1
        · simp [Store.redo, Store.canRedo, Store.applyPatch,
            show ¬((hist.length : Int) ≤ ptr + 1) by omega]
          omega
        · simp [Store.redo, Store.canRedo, Store.applyPatch,
            show (hist.length : Int) ≤ ptr + 1 by omega]
          exact ⟨h1, h2⟩
      · simp [Store.redo, truncHistory]
        omega
  · intro hptr hnp
    cases ip
    · simp [Store.undo, Store.canUndo, show ptr < 0 by omega, show ¬(0 ≤ ptr) by omega]
    · cases dcp
      · simp [Store.undo, Store.canUndo, show ptr < 0 by omega, show ¬(0 ≤ ptr) by omega]
      · simp at hnp
  · intro hcr hnp
    simp [Store.canRedo] at hcr
    cases ip
    · simp [Store.redo, Store.canRedo, show (hist.length : Int) ≤ ptr + 1 by omega]
    · cases dcp
      · simp [Store.redo, Store.canRedo, show (hist.length : Int) ≤ ptr + 1 by omega]
      · simp at hnp

/-- Claim C9, counterexample: on a store paused at pointer `-1` with one
pending in-pause change, both `getCanUndo()` and `getCanRedo()` report
nothing to undo or redo, yet `undo()` grows the history and changes
`current`, and `redo()` grows the history and moves the pointer — they
are not no-ops that leave pointer, history and current unchanged as the
claim states. -/
theorem C9_noop_cex :
    pausedDirty.getCanUndo = false ∧
      pausedDirty.getCanRedo = false ∧
      pausedDirty.undo.history ≠ pausedDirty.history ∧
      pausedDirty.undo.current ≠ pausedDirty.current ∧
      pausedDirty.redo.pointer ≠ pausedDirty.pointer ∧
      pausedDirty.redo.history ≠ pausedDirty.history := by
  refine ⟨by decide, by decide, by decide, by decide, by decide, by decide⟩

/-- Claim C9, witness: the invariant theorem applied to a freshly
constructed store (pointer `-1`, empty history). -/
theorem C9_pointer_bounds_witness :
    StoreInv ((mkStore steveN).mutate (fun n => n)) ∧ StoreInv (mkStore steveN).undo :=
  ⟨(C9_pointer_bounds (mkStore steveN) (fun n => n) Fields.nil Node.null
      ⟨by decide, by decide⟩).1,
   (C9_pointer_bounds (mkStore steveN) (fun n => n) Fields.nil Node.null
      ⟨by decide, by decide⟩).2.2.2.2.2.1⟩

/-- Claim C6: the claim says `redo()` on a paused store with a pending
change commits that change exactly as `resume()` would, leaves
`isPaused` cleared, and then performs the ledger redo step.  The code's
paused-dirty branch commits the pending change but then returns at once:
`isPaused` stays true (contradicting the method's own doc comment "This
will resume the history"), no redo step runs, and no notification is
sent.  It also leaves `prev` at the pause-start snapshot where `resume()`
would set `prev := current`. -/
theorem C6_redo_leaves_paused :
    pausedDirty.redo.isPaused = true ∧
      pausedDirty.redo.history.length = 1 ∧
      pausedDirty.redo.pointer = 0 ∧
      pausedDirty.redo.didChangeWhilePaused = false ∧
      pausedDirty.redo.notifications = pausedDirty.notifications ∧
      pausedDirty.redo.prev = steveN ∧
      pausedDirty.resume.prev = pausedDirty.resume.current := by
  refine ⟨by decide, by decide, by decide, by decide, by decide, by decide, by decide⟩

/-- Claim C1, amended: on an unpaused store satisfying the ledger
invariant, if the before- and after-snapshots are well-formed objects (or
arrays) of the same shape and the diff creates no array slots, then
`mutate(m)` publishes exactly `m(current)` and an immediate `undo()`
restores `current` up to structural equality (without those provisos the
claim fails: see the counterexample, where an array-slot CREATE is
inverted by `lodash.unset` and leaves a hole). -/
theorem C1_round_trip (s : Store) (m : Node → Node)
    (hp : s.isPaused = false) (hinv : StoreInv s)
    (hwa : wfN s.current = true) (hwb : wfN (m s.current) = true)
    (hshape : sameShape s.current (m s.current) = true)
    (hnoarr : noArrCreate (diff s.current (m s.current)) = true) :
    (s.mutate m).current = m s.current ∧
      equivN ((s.mutate m).undo).current s.current = true := by
  obtain ⟨prev, cur, ptr, hist, ip, dcp, ntf⟩ := s
  have hip : ip = false := hp
  subst hip
  obtain ⟨h1a, h2a⟩ := hinv
  have h1 : -1 ≤ ptr := h1a
  have h2 : ptr ≤ (hist.length : Int) - 1 := h2a
  refine ⟨rfl, ?_⟩
  have hlen : (truncHistory hist ptr).length = (ptr + 1).toNat := by
    simp only [truncHistory, List.length_take]
    omega
  have hget : ((truncHistory hist ptr ++ [diff cur (m cur)]).get? (ptr + 1).toNat).getD [] =
      diff cur (m cur) := by
    rw [List.get?_eq_getElem?, ← hlen, List.getElem?_concat_length]
    rfl
  have h0 : (0 : Int) ≤ ptr + 1 := by omega
  simp only [Store.mutate, Store.willChange, Store.didChange, Store.undo,
    Store.canUndo, Bool.not_false, if_false, if_true, Bool.false_and,
    Bool.and_false, Bool.or_false, h0, decide_True, Bool.true_or,
    Bool.not_true, Bool.false_eq_true, hget]
  exact round_trip cur (m cur) hshape hwa hwb hnoarr

/-- Claim C1, witness: the amended round trip on a concrete store and a
scalar-field mutation. -/
theorem C1_round_trip_witness :
    ((mkStore steveN).mutate (fun _ =>
        Node.obj (.cons "name" (.str "Steve") (.cons "age" (.num 37) .nil)))).current =
      Node.obj (.cons "name" (.str "Steve") (.cons "age" (.num 37) .nil)) ∧
      equivN (((mkStore steveN).mutate (fun _ =>
        Node.obj (.cons "name" (.str "Steve") (.cons "age" (.num 37) .nil)))).undo).current
        steveN = true :=
  C1_round_trip (mkStore steveN)
    (fun _ => Node.obj (.cons "name" (.str "Steve") (.cons "age" (.num 37) .nil)))
    rfl ⟨by decide, by decide⟩ (by decide) (by decide) (by decide) (by decide)

/-- While paused with the dirty flag already raised, each `mutate` only
rewrites `current` and bumps the notification count: `prev`, `pointer`
and `history` are untouched. -/
theorem paused_fold (ms : List (Node → Node)) :
    ∀ (prev cur : Node) (ptr : Int) (hist : List (List Delta)) (ntf : Nat),
      ms.foldl Store.mutate
          { prev := prev, current := cur, pointer := ptr, history := hist,
            isPaused := true, didChangeWhilePaused := true, notifications := ntf } =
        { prev := prev, current := ms.foldl (fun n mi => mi n) cur, pointer := ptr,
          history := hist, isPaused := true, didChangeWhilePaused := true,
          notifications := ntf + ms.length } := by
  induction ms with
  | nil =>
    intro prev cur ptr hist ntf
    rfl
  | cons mi rest ih =>
    intro prev cur ptr hist ntf
    rw [List.foldl_cons, List.foldl_cons]
    have hstep : Store.mutate
        { prev := prev, current := cur, pointer := ptr, history := hist,
          isPaused := true, didChangeWhilePaused := true, notifications := ntf } mi =
        { prev := prev, current := mi cur, pointer := ptr, history := hist,
          isPaused := true, didChangeWhilePaused := true,
          notifications := ntf + 1 } := rfl
    rw [hstep, ih]
    have harith : ntf + 1 + rest.length = ntf + (rest.length + 1) := by omega
    rw [harith]
    rfl

/-- Claim C2, amended: for `pause(); mutate(m1); ...; mutate(mk); resume()`
with `k ≥ 1` on an unpaused clean store satisfying the ledger invariant,
no Patch is appended and the pointer does not move while paused; `resume`
appends exactly one Patch — the diff between the pause-start snapshot and
the resume-time snapshot — after truncating the redo future; and, when
the coalesced before/after snapshots are well-formed, same-shaped and
their diff creates no array slots, a single `undo()` after resume
restores `current` to the pre-pause snapshot up to structural equality
(without those provisos restoration fails: see the counterexample, where
the coalesced patch has an array-slot CREATE and undo leaves a hole). -/
theorem C2_pause_coalescing (s : Store) (m1 : Node → Node) (ms : List (Node → Node))
    (hp : s.isPaused = false) (hd : s.didChangeWhilePaused = false)
    (hinv : StoreInv s)
    (hwa : wfN s.current = true)
    (hwb : wfN ((m1 :: ms).foldl (fun n mi => mi n) s.current) = true)
    (hshape : sameShape s.current ((m1 :: ms).foldl (fun n mi => mi n) s.current) = true)
    (hnoarr : noArrCreate
      (diff s.current ((m1 :: ms).foldl (fun n mi => mi n) s.current)) = true) :
    ((m1 :: ms).foldl Store.mutate s.pause).history = s.history ∧
      ((m1 :: ms).foldl Store.mutate s.pause).pointer = s.pointer ∧
      ((m1 :: ms).foldl Store.mutate s.pause).resume.history =
        truncHistory s.history s.pointer ++
          [diff s.current ((m1 :: ms).foldl (fun n mi => mi n) s.current)] ∧
      ((m1 :: ms).foldl Store.mutate s.pause).resume.pointer = s.pointer + 1 ∧
      equivN (((m1 :: ms).foldl Store.mutate s.pause).resume.undo).current
        s.current = true := by
  obtain ⟨prev, cur, ptr, hist, ip, dcp, ntf⟩ := s
  have hip : ip = false := hp
  subst hip
  have hdc : dcp = false := hd
  subst hdc
  obtain ⟨h1a, h2a⟩ := hinv
  have h1 : -1 ≤ ptr := h1a
  have h2 : ptr ≤ (hist.length : Int) - 1 := h2a
  have hfirst : Store.mutate
      (Store.pause
        { prev := prev, current := cur, pointer := ptr, history := hist,
          isPaused := false, didChangeWhilePaused := false,
          notifications := ntf }) m1 =
      { prev := cur, current := m1 cur, pointer := ptr, history := hist,
        isPaused := true, didChangeWhilePaused := true,
        notifications := ntf + 2 } := rfl
  have hfold : (m1 :: ms).foldl Store.mutate
      (Store.pause
        { prev := prev, current := cur, pointer := ptr, history := hist,
          isPaused := false, didChangeWhilePaused := false,
          notifications := ntf }) =
      { prev := cur, current := (m1 :: ms).foldl (fun n mi => mi n) cur,
        pointer := ptr, history := hist, isPaused := true,
        didChangeWhilePaused := true,
        notifications := ntf + 2 + ms.length } := by
    rw [List.foldl_cons, hfirst, paused_fold, List.foldl_cons]
  rw [hfold]
  refine ⟨rfl, rfl, ?_⟩
  have hres : Store.resume
      { prev := cur, current := (m1 :: ms).foldl (fun n mi => mi n) cur,
        pointer := ptr, history := hist, isPaused := true,
        didChangeWhilePaused := true,
        notifications := ntf + 2 + ms.length } =
      { prev := (m1 :: ms).foldl (fun n mi => mi n) cur,
        current := (m1 :: ms).foldl (fun n mi => mi n) cur,
        pointer := ptr + 1,
        history := truncHistory hist ptr ++
          [diff cur ((m1 :: ms).foldl (fun n mi => mi n) cur)],
        isPaused := false, didChangeWhilePaused := false,
        notifications := ntf + 2 + ms.length + 1 } := rfl
  rw [hres]
  refine ⟨rfl, rfl, ?_⟩
  have hlen : (truncHistory hist ptr).length = (ptr + 1).toNat := by
    simp only [truncHistory, List.length_take]
    omega
  have hget : ((truncHistory hist ptr ++
      [diff cur ((m1 :: ms).foldl (fun n mi => mi n) cur)]).get?
        (ptr + 1).toNat).getD [] =
      diff cur ((m1 :: ms).foldl (fun n mi => mi n) cur) := by
    rw [List.get?_eq_getElem?, ← hlen, List.getElem?_concat_length]
    rfl
  have h0 : (0 : Int) ≤ ptr + 1 := by omega
  simp only [Store.undo, Store.canUndo, Bool.not_false, if_false, if_true,
    Bool.false_and, Bool.and_false, Bool.or_false, h0, decide_True, Bool.true_or,
    Bool.not_true, Bool.false_eq_true, hget]
  exact round_trip cur ((m1 :: ms).foldl (fun n mi => mi n) cur) hshape hwa hwb hnoarr

/-- Claim C2, witness: pause, two coalesced scalar mutations, resume,
undo on a concrete store. -/
theorem C2_pause_coalescing_witness :
    (([fun _ => Node.obj (.cons "name" (.str "Steve") (.cons "age" (.num 37) .nil)),
       fun _ => Node.obj (.cons "name" (.str "Steve") (.cons "age" (.num 38) .nil))] :
        List (Node → Node)).foldl Store.mutate
        (mkStore steveN).pause).resume.history.length = 1 ∧
      equivN ((([fun _ => Node.obj (.cons "name" (.str "Steve") (.cons "age" (.num 37) .nil)),
       fun _ => Node.obj (.cons "name" (.str "Steve") (.cons "age" (.num 38) .nil))] :
        List (Node → Node)).foldl Store.mutate
        (mkStore steveN).pause).resume.undo).current steveN = true := by
  have h := C2_pause_coalescing (mkStore steveN)
    (fun _ => Node.obj (.cons "name" (.str "Steve") (.cons "age" (.num 37) .nil)))
    [fun _ => Node.obj (.cons "name" (.str "Steve") (.cons "age" (.num 38) .nil))]
    rfl rfl ⟨by decide, by decide⟩ (by decide) (by decide) (by decide) (by decide)
  refine ⟨?_, h.2.2.2.2⟩
  rw [h.2.2.1]
  rfl

/-! ## Claim C8: structural sharing and reference identity -/

/-- Reading back a tagged field write. -/
theorem getFT_setFT_self (fs : TFields) (k : String) (v : TNode) :
    getFT (setFT fs k v) k = some v := by
  induction fs using TFields.spineIndT with
  | hnil => simp [setFT, getFT]
  | hcons k1 v1 tl ih =>
    by_cases h : k1 = k
    · rw [setFT, if_pos h, getFT, if_pos h]
    · rw [setFT, if_neg h, getFT, if_neg h]
      exact ih

/-- A tagged field write leaves other keys alone. -/
theorem getFT_setFT_ne (fs : TFields) (k k2 : String) (v : TNode)
    (hne : k2 ≠ k) : getFT (setFT fs k v) k2 = getFT fs k2 := by
  induction fs using TFields.spineIndT with
  | hnil => simp [setFT, getFT, Ne.symm hne]
  | hcons k1 v1 tl ih =>
    by_cases h : k1 = k
    · subst h
      rw [setFT, if_pos rfl, getFT, if_neg (Ne.symm hne), getFT,
        if_neg (Ne.symm hne)]
    · rw [setFT, if_neg h, getFT, getFT]
      by_cases h2 : k1 = k2
      · rw [if_pos h2, if_pos h2]
      · rw [if_neg h2, if_neg h2]
        exact ih

/-- `Object.assign({}, x)` always yields a freshly tagged object and
advances the counter by one. -/
theorem spreadToObjT_shape (c : Nat) (x : TNode) :
    ∃ fs, spreadToObjT c x = (.tobj c fs, c + 1) := by
  cases x <;> exact ⟨_, rfl⟩

/-- Claim C8, amended (the part that holds, and only for the core
`applyPatch` pipeline used by `LiquorStore.mutate`): applying a Patch
whose single Difference touches only path `a.b.c` copies the root and
the nodes along the walked path, so the node at the sibling path `a.d`
of the result is reference-identical to — the very same tagged term as —
the node at `a.d` of the input.  (In `Trashly.mutate` of the store class
itself this fails: the whole snapshot is `cloneDeep`d, see the
counterexample.) -/
theorem C8_applyPatch_sharing (rid aid : Nat) (rfs afs : TFields) (w : TNode)
    (a b c d : String) (v : Node) (old : Option Node) (cnt : Nat)
    (hba : b ≠ a) (hdb : d ≠ b)
    (hga : getFT rfs a = some (.tobj aid afs))
    (hgd : getFT afs d = some w) :
    getAtPathT (.tobj rid rfs) [Key.str a, Key.str d] = some w ∧
      ∃ res cnt2,
        applyPatchCoreT (.tobj rid rfs)
            [⟨DKind.CHANGE, [Key.str a, Key.str b, Key.str c], some v, old⟩] cnt =
          (.ok res, cnt2) ∧
        getAtPathT res [Key.str a, Key.str d] = some w := by
  constructor
  · simp [getAtPathT, getKeyT, hga, hgd]
  rcases hcb : (getFT afs b).getD (.scal .undef) with v0 | ⟨i0, f0⟩ | ⟨i0, e0⟩
  · refine ⟨.tobj cnt (setFT rfs a (.tobj (cnt + 1) (setFT afs b
        (.tobj (cnt + 2) (setFT .nil c (injectT v (cnt + 3)).1))))),
      (injectT v (cnt + 3)).2, ?_, ?_⟩
    · simp [applyPatchCoreT, spreadToObjT, applyDeltasCoreT, walkDeltaT,
        getKeyT, hga, hba, hcb, runQueueT, setKeyNodeT]
    · simp [getAtPathT, getKeyT, getFT_setFT_self, getFT_setFT_ne _ _ _ _ hdb, hgd]
  · refine ⟨.tobj cnt (setFT rfs a (.tobj (cnt + 1) (setFT afs b
        (.tobj (cnt + 2) (setFT f0 c (injectT v (cnt + 3)).1))))),
      (injectT v (cnt + 3)).2, ?_, ?_⟩
    · simp [applyPatchCoreT, spreadToObjT, applyDeltasCoreT, walkDeltaT,
        getKeyT, hga, hba, hcb, runQueueT, setKeyNodeT]
    · simp [getAtPathT, getKeyT, getFT_setFT_self, getFT_setFT_ne _ _ _ _ hdb, hgd]
  · refine ⟨.tobj cnt (setFT rfs a (.tobj (cnt + 1) (setFT afs b
        (.tobj (cnt + 2) (setFT (enumFT 0 e0) c (injectT v (cnt + 3)).1))))),
      (injectT v (cnt + 3)).2, ?_, ?_⟩
    · simp [applyPatchCoreT, spreadToObjT, applyDeltasCoreT, walkDeltaT,
        getKeyT, hga, hba, hcb, runQueueT, setKeyNodeT]
    · simp [getAtPathT, getKeyT, getFT_setFT_self, getFT_setFT_ne _ _ _ _ hdb, hgd]

/-- Claim C8, counterexample: the claim cites `Trashly.mutate`, but that
method publishes `cloneDeep(this.current)` after running the mutator on
the clone — every composite of the published snapshot is a fresh
reference.  On `{a: {b: {c: 1}, d: {}}}` with a mutation touching only
`a.b.c`, the node at the sibling path `a.d` of the new `current` is a
different reference (a fresh tag) from the node at `a.d` of the old
`current`, merely structurally equal to it. -/
theorem C8_mutate_clone_cex :
    getAtPathT
        (.tobj 0 (.cons "a" (.tobj 1 (.cons "b" (.tobj 2 (.cons "c" (.scal (.num 1)) .nil))
          (.cons "d" (.tobj 3 .nil) .nil))) .nil))
        [Key.str "a", Key.str "d"] = some (.tobj 3 .nil) ∧
      getAtPathT
        (trashlyPublishT
          (.tobj 0 (.cons "a" (.tobj 1 (.cons "b" (.tobj 2 (.cons "c" (.scal (.num 1)) .nil))
            (.cons "d" (.tobj 3 .nil) .nil))) .nil))
          (fun x => setAtPathT x [Key.str "a", Key.str "b", Key.str "c"] (.scal (.num 9)))
          100)
        [Key.str "a", Key.str "b", Key.str "c"] = some (.scal (.num 9)) ∧
      getAtPathT
        (trashlyPublishT
          (.tobj 0 (.cons "a" (.tobj 1 (.cons "b" (.tobj 2 (.cons "c" (.scal (.num 1)) .nil))
            (.cons "d" (.tobj 3 .nil) .nil))) .nil))
          (fun x => setAtPathT x [Key.str "a", Key.str "b", Key.str "c"] (.scal (.num 9)))
          100)
        [Key.str "a", Key.str "d"] = some (.tobj 103 .nil) ∧
      (some (TNode.tobj 103 .nil) ≠ some (TNode.tobj 3 .nil) ∧
        Option.map eraseT (some (TNode.tobj 103 .nil)) =
          Option.map eraseT (some (TNode.tobj 3 .nil))) := by
  refine ⟨by decide, by decide, by decide, by decide, by decide⟩

/-- Claim C8, witness: the sharing theorem on the concrete snapshot
`{a: {b: {c: 1}, d: {}}}` with a CHANGE at `a.b.c`. -/
theorem C8_applyPatch_sharing_witness :
    getAtPathT
        (.tobj 0 (.cons "a" (.tobj 1 (.cons "b" (.tobj 2 (.cons "c" (.scal (.num 1)) .nil))
          (.cons "d" (.tobj 3 .nil) .nil))) .nil))
        [Key.str "a", Key.str "d"] = some (.tobj 3 .nil) ∧
      ∃ res cnt2,
        applyPatchCoreT
            (.tobj 0 (.cons "a" (.tobj 1 (.cons "b" (.tobj 2 (.cons "c" (.scal (.num 1)) .nil))
              (.cons "d" (.tobj 3 .nil) .nil))) .nil))
            [⟨DKind.CHANGE, [Key.str "a", Key.str "b", Key.str "c"], some (.num 9), some (.num 1)⟩]
            100 =
          (.ok res, cnt2) ∧
        getAtPathT res [Key.str "a", Key.str "d"] = some (.tobj 3 .nil) :=
  C8_applyPatch_sharing 0 1
    (.cons "a" (.tobj 1 (.cons "b" (.tobj 2 (.cons "c" (.scal (.num 1)) .nil))
      (.cons "d" (.tobj 3 .nil) .nil))) .nil)
    (.cons "b" (.tobj 2 (.cons "c" (.scal (.num 1)) .nil)) (.cons "d" (.tobj 3 .nil) .nil))
    (.tobj 3 .nil) "a" "b" "c" "d" (.num 9) (some (.num 1)) 100
    (by decide) (by decide) (by decide) (by decide)

end Trashly
